import Mathlib

/-!
# Verification of the rust_ob limit order book

Shallow embedding of the `rust_ob` matching engine (src/orderbook.rs,
src/bookside.rs, src/order.rs, src/errors.rs) and proofs of the spec claims.

Modelling conventions:

* `rust_decimal::Decimal` values (prices, quantities, costs) are embedded as
  `Int`.  All claim-relevant arithmetic (`+`, `-`, `*`, `min`, comparisons,
  `is_zero`) is the exact arithmetic of decimals, which `Int` shares on the
  integral inputs the claims use.  `Decimal::MAX` / `Decimal::MIN` are the
  concrete extreme values `2^96 - 1` and `-(2^96 - 1)` (scale 0); they appear
  as `decimalMAX` / `decimalMIN` below, and theorems about market orders carry
  the range hypothesis that resting prices lie in `[decimalMIN, decimalMAX]`,
  which is a tautology of the `Decimal` type in the source.
* The `u64` priority counter is embedded as `Nat`; the spec treats counter
  overflow as a fatal bug, not reachable behaviour.
* A `BookSide` (an `RBMap` from price to a FIFO queue of orders, see
  src/bookside.rs) is embedded as the list of its orders in best-to-worst
  iteration order: the key order of `price_tree`, each per-price queue
  back-to-front (earliest arrival first).  `get_highest_priority` is the head
  of that list, `pop_highest_priority` drops the head, `add` inserts the new
  order after every order whose price is better or equal (the new order is
  pushed at the front of its price queue, hence iterates last in its level),
  and `remove` erases the unique order with the given id.
* The `order_index : HashMap<OrderID, Rc<RefCell<Order>>>` shares handles with
  the sides; the only fields the engine ever reads through the index are the
  immutable `id`, `side` and `price` (in `cancel_order` and the duplicate-id
  check), so an index entry is embedded as that triple.
* `&mut self` methods returning `Result` are embedded as functions returning
  a `(result, new book)` pair; an early error return leaves the book equal to
  its input, which is the translation of returning before any mutation.
* In the matching loop of `process_limit_order`, when a maker is only
  partially consumed the loop body leaves the residual taker quantity at
  zero (`satisfied_quantity = quantity` whenever the maker residual is
  nonzero, since `min` returns one of its arguments), so the `while` guard
  fails and the loop exits; the embedding returns directly in that branch.
* `process_market_order` asserts that its internal cleanup `cancel_order`
  succeeds (`assert_eq!(self.cancel_order(id), Ok(()))`); on a failing cancel
  the Rust program aborts.  The embedding takes the cancelled book in both
  cases; the lemmas below show the cancel in fact always succeeds there, so
  the assertion branch is dead.
-/

set_option linter.unusedSectionVars false

namespace RustOb

/-- The two sides of the book (src/order.rs). -/
inductive Side : Type
  | Buy : Side
  | Sell : Side
deriving DecidableEq

/-- A resting order (src/order.rs).  Only `quantity` mutates after creation. -/
structure Order (α : Type) : Type where
  id : α
  side : Side
  price : Int
  quantity : Int
  priority : Nat
deriving DecidableEq

/-- One fill record (`OrderMatch` in src/orderbook.rs). -/
structure OrderMatch (α : Type) : Type where
  order : α
  quantity : Int
  cost : Int
deriving DecidableEq

/-- What the engine reads of an order through the `order_index` handle:
its immutable `id`, `side` and `price` fields. -/
structure IndexEntry (α : Type) : Type where
  id : α
  side : Side
  price : Int
deriving DecidableEq

/-- The order book (src/orderbook.rs).  `buy_side` and `sell_side` are in
best-to-worst iteration order: `buy_side` price descending, `sell_side` price
ascending, FIFO (arrival order) within equal prices. -/
structure OrderBook (α : Type) : Type where
  order_index : List (IndexEntry α)
  buy_side : List (Order α)
  sell_side : List (Order α)
  priority : Nat
deriving DecidableEq

namespace errors

/-- Error type of `process_limit_order` (src/errors.rs). -/
inductive ProcessLimitOrder : Type
  | OrderAlreadyExists : ProcessLimitOrder
  | NonPositiveQuantity : ProcessLimitOrder
deriving DecidableEq

/-- Error type of `cancel_order` (src/errors.rs). -/
inductive CancelOrder : Type
  | OrderNotFound : CancelOrder
deriving DecidableEq

/-- Error type of `calculate_market_cost` (src/errors.rs). -/
inductive CalculateMarketCost : Type
  | NonPositiveQuantity : CalculateMarketCost
deriving DecidableEq

/-- Error type of `process_market_order` (src/errors.rs). -/
inductive ProcessMarketOrder : Type
  | OrderAlreadyExists : ProcessMarketOrder
  | NonPositiveQuantity : ProcessMarketOrder
deriving DecidableEq

end errors

/-- The value `rust_decimal::Decimal::MAX` = 2^96 - 1 (at scale 0). -/
def decimalMAX : Int := 79228162514264337593543950335

/-- The value `rust_decimal::Decimal::MIN` = -(2^96 - 1) (at scale 0). -/
def decimalMIN : Int := -79228162514264337593543950335

variable {α : Type} [DecidableEq α]

/-- The check `self.order_index.contains_key(&id)`. -/
def indexContains (idx : List (IndexEntry α)) (id : α) : Bool :=
  idx.any fun e => decide (e.id = id)

/-- Lookup of an id in the index (the read half of `HashMap::remove`). -/
def indexLookup (idx : List (IndexEntry α)) (id : α) : Option (IndexEntry α) :=
  idx.find? fun e => decide (e.id = id)

/-- Removal of an id from the index (`HashMap::remove`; keys are unique). -/
def indexRemove (idx : List (IndexEntry α)) (id : α) : List (IndexEntry α) :=
  idx.eraseP fun e => decide (e.id = id)

/-- The index removals accumulated by one matching loop, applied in order. -/
def removeIds (idx : List (IndexEntry α)) (ids : List α) : List (IndexEntry α) :=
  ids.foldl (fun acc rid => indexRemove acc rid) idx

/-- The operation `BookSide::add` on the flattened side: the new order is inserted after
every resting order whose price is better or equal (`keep x.price o.price`),
i.e. at the back of its own price level, FIFO position.  `keep` is
instantiated per side direction below. -/
def bsInsert (keep : Int → Int → Bool) (o : Order α) : List (Order α) → List (Order α)
  | [] => [o]
  | x :: xs => if keep x.price o.price then x :: bsInsert keep o xs else o :: x :: xs

/-- Buy side `add`: existing orders with price ≥ the new price stay in front
(buy side iterates price descending). -/
def buyAdd (o : Order α) (l : List (Order α)) : List (Order α) :=
  bsInsert (fun x p => decide (p ≤ x)) o l

/-- Sell side `add`: existing orders with price ≤ the new price stay in front
(sell side iterates price ascending). -/
def sellAdd (o : Order α) (l : List (Order α)) : List (Order α) :=
  bsInsert (fun x p => decide (x ≤ p)) o l

/-- The operation `BookSide::remove`: erase the (unique) resting order with the given id. -/
def bsRemove (id : α) (l : List (Order α)) : List (Order α) :=
  l.eraseP fun o => decide (o.id = id)

/-- Result of the matching loop of `process_limit_order`:
the maker fill records in match order, the taker's residual quantity, the
taker's accumulated fill quantity and cost (`new_order_order_match`), the
remaining opposite side, and the ids removed from the index. -/
structure MatchResult (α : Type) : Type where
  records : List (OrderMatch α)
  qty_rem : Int
  taker_qty : Int
  taker_cost : Int
  opp : List (Order α)
  removed : List α
deriving DecidableEq

/-- The main matching loop of `process_limit_order`
(src/orderbook.rs lines 115-172), as a function of the taker side and price,
the running taker quantity and the opposite side.  Each iteration peeks the
best opposite order, stops if the prices do not cross, otherwise fills
`min(quantity, maker.quantity)` at the maker price, removing the maker from
side and index when fully consumed.  A partially consumed maker forces the
residual taker quantity to zero, so the loop exits (see module comment). -/
def matchLoop (side : Side) (price : Int) : Int → List (Order α) → MatchResult α
  | quantity, [] => ⟨[], quantity, 0, 0, [], []⟩
  | quantity, maker :: rest =>
    if quantity ≤ 0 then ⟨[], quantity, 0, 0, maker :: rest, []⟩
    else
      let satisfied : Bool := match side with
        | Side.Buy => decide (maker.price ≤ price)
        | Side.Sell => decide (price ≤ maker.price)
      if satisfied then
        let sq := min quantity maker.quantity
        let buyCost := maker.price * sq
        let makerRec : OrderMatch α :=
          { order := maker.id, quantity := sq,
            cost := match side with | Side.Buy => -buyCost | Side.Sell => buyCost }
        let takerDelta : Int := match side with | Side.Buy => buyCost | Side.Sell => -buyCost
        if maker.quantity - sq = 0 then
          let r := matchLoop side price (quantity - sq) rest
          ⟨makerRec :: r.records, r.qty_rem, sq + r.taker_qty, takerDelta + r.taker_cost,
            r.opp, maker.id :: r.removed⟩
        else
          ⟨[makerRec], quantity - sq, sq, takerDelta,
            { maker with quantity := maker.quantity - sq } :: rest, []⟩
      else ⟨[], quantity, 0, 0, maker :: rest, []⟩

/-- The constructor `OrderBook::new()`. -/
def OrderBook.new (α : Type) : OrderBook α :=
  { order_index := [], buy_side := [], sell_side := [], priority := 0 }

/-- The method `OrderBook::process_limit_order` (src/orderbook.rs lines 94-197). -/
def process_limit_order (ob : OrderBook α) (id : α) (side : Side)
    (price quantity : Int) :
    Except errors.ProcessLimitOrder (List (OrderMatch α)) × OrderBook α :=
  if indexContains ob.order_index id then
    (Except.error errors.ProcessLimitOrder.OrderAlreadyExists, ob)
  else if quantity ≤ 0 then
    (Except.error errors.ProcessLimitOrder.NonPositiveQuantity, ob)
  else
    match side with
    | Side.Buy =>
      let r := matchLoop Side.Buy price quantity ob.sell_side
      let ob1 : OrderBook α :=
        { ob with sell_side := r.opp, order_index := removeIds ob.order_index r.removed }
      let vec := if r.taker_qty = 0 then r.records
                 else r.records ++ [⟨id, r.taker_qty, r.taker_cost⟩]
      if r.qty_rem = 0 then (Except.ok vec, ob1)
      else
        -- get_next_priority: `self.priority += 1; self.priority`
        (Except.ok vec,
          { ob1 with
              priority := ob1.priority + 1,
              order_index := ⟨id, Side.Buy, price⟩ :: ob1.order_index,
              buy_side := buyAdd ⟨id, Side.Buy, price, r.qty_rem, ob1.priority + 1⟩ ob1.buy_side })
    | Side.Sell =>
      let r := matchLoop Side.Sell price quantity ob.buy_side
      let ob1 : OrderBook α :=
        { ob with buy_side := r.opp, order_index := removeIds ob.order_index r.removed }
      let vec := if r.taker_qty = 0 then r.records
                 else r.records ++ [⟨id, r.taker_qty, r.taker_cost⟩]
      if r.qty_rem = 0 then (Except.ok vec, ob1)
      else
        (Except.ok vec,
          { ob1 with
              priority := ob1.priority + 1,
              order_index := ⟨id, Side.Sell, price⟩ :: ob1.order_index,
              sell_side := sellAdd ⟨id, Side.Sell, price, r.qty_rem, ob1.priority + 1⟩ ob1.sell_side })

/-- The method `OrderBook::cancel_order` (src/orderbook.rs lines 216-228): remove the id
from the index (`OrderNotFound` if absent), then remove the handle from the
side recorded in it. -/
def cancel_order (ob : OrderBook α) (id : α) :
    Except errors.CancelOrder Unit × OrderBook α :=
  match indexLookup ob.order_index id with
  | none => (Except.error errors.CancelOrder.OrderNotFound, ob)
  | some e =>
    match e.side with
    | Side.Buy =>
      (Except.ok (),
        { ob with order_index := indexRemove ob.order_index id,
                  buy_side := bsRemove id ob.buy_side })
    | Side.Sell =>
      (Except.ok (),
        { ob with order_index := indexRemove ob.order_index id,
                  sell_side := bsRemove id ob.sell_side })

/-- The read-only walk of `calculate_market_cost`
(src/orderbook.rs lines 269-285): iterate the opposite side best-first while
the residual quantity is nonzero, accumulating fulfilled quantity and signed
cost with the same convention as the matching loop. -/
def cmcLoop (side : Side) : Int → List (Order α) → Int × Int
  | _, [] => (0, 0)
  | quantity, o :: rest =>
    if quantity = 0 then (0, 0)
    else
      let sq := min quantity o.quantity
      let buyCost := o.price * sq
      let r := cmcLoop side (quantity - sq) rest
      (sq + r.1, (match side with | Side.Buy => buyCost | Side.Sell => -buyCost) + r.2)

/-- The method `OrderBook::calculate_market_cost` (src/orderbook.rs lines 251-288).
Takes `&self`: it returns no book because it mutates nothing. -/
def calculate_market_cost (ob : OrderBook α) (side : Side) (quantity : Int) :
    Except errors.CalculateMarketCost (Int × Int) :=
  if quantity ≤ 0 then Except.error errors.CalculateMarketCost.NonPositiveQuantity
  else
    Except.ok (cmcLoop side quantity
      (match side with | Side.Buy => ob.sell_side | Side.Sell => ob.buy_side))

/-- The taker price used by `process_market_order`: the unattainable extreme
(`Decimal::MAX` for a Buy, `Decimal::MIN` for a Sell). -/
def marketPrice : Side → Int
  | Side.Buy => decimalMAX
  | Side.Sell => decimalMIN

/-- The method `OrderBook::process_market_order` (src/orderbook.rs lines 329-359):
a limit order at the extreme price, followed by the cleanup cancel when the
fill sequence is empty or its last record's quantity differs from the
request.  The source asserts the cleanup cancel returns `Ok`; the branch
where it does not aborts the Rust program and is proved dead below. -/
def process_market_order (ob : OrderBook α) (id : α) (side : Side)
    (quantity : Int) :
    Except errors.ProcessMarketOrder (List (OrderMatch α)) × OrderBook α :=
  match process_limit_order ob id side (marketPrice side) quantity with
  | (Except.error errors.ProcessLimitOrder.OrderAlreadyExists, ob2) =>
    (Except.error errors.ProcessMarketOrder.OrderAlreadyExists, ob2)
  | (Except.error errors.ProcessLimitOrder.NonPositiveQuantity, ob2) =>
    (Except.error errors.ProcessMarketOrder.NonPositiveQuantity, ob2)
  | (Except.ok vec, ob2) =>
    match vec.getLast? with
    | none => (Except.ok vec, (cancel_order ob2 id).2)
    | some last =>
      if last.quantity = quantity then (Except.ok vec, ob2)
      else (Except.ok vec, (cancel_order ob2 id).2)

/-- The ids of the orders resting on a side, in iteration order. -/
def sideIds (l : List (Order α)) : List α := l.map Order.id

/-- The `(taker.quantity, taker.cost)` pair read off a fill sequence:
the terminal record's quantity and cost, or `(0, 0)` when the sequence is
empty.  (Statement vocabulary for the dry-run consistency claim.) -/
def fillsTerminal (fills : List (OrderMatch α)) : Int × Int :=
  match fills.getLast? with
  | none => (0, 0)
  | some l => (l.quantity, l.cost)

/-- Well-formedness of a book: the invariants I1-I6 of the spec (minus I4,
which no claim uses), as established for every book reachable from
`OrderBook.new` by the public operations.
* each side holds only orders tagged with that side,
* resting quantities are positive (I2),
* the buy side is sorted by price descending, the sell side ascending (I5),
* every resting priority is at most the book counter,
* index keys and resting ids are without duplicates,
* index entries point into the side recorded in them and every resting order
  has an index entry with its id and side (I1),
* every buy price is strictly below every sell price (I6; with sortedness
  this is equivalent to comparing the two best orders). -/
def WF (ob : OrderBook α) : Prop :=
  (∀ o ∈ ob.buy_side, o.side = Side.Buy)
  ∧ (∀ o ∈ ob.sell_side, o.side = Side.Sell)
  ∧ (∀ o ∈ ob.buy_side, 0 < o.quantity)
  ∧ (∀ o ∈ ob.sell_side, 0 < o.quantity)
  ∧ ob.buy_side.Pairwise (fun a b => b.price ≤ a.price)
  ∧ ob.sell_side.Pairwise (fun a b => a.price ≤ b.price)
  ∧ (∀ o ∈ ob.buy_side, o.priority ≤ ob.priority)
  ∧ (∀ o ∈ ob.sell_side, o.priority ≤ ob.priority)
  ∧ (ob.order_index.map IndexEntry.id).Nodup
  ∧ (sideIds ob.buy_side ++ sideIds ob.sell_side).Nodup
  ∧ (∀ e ∈ ob.order_index,
      e.id ∈ sideIds (match e.side with | Side.Buy => ob.buy_side | Side.Sell => ob.sell_side))
  ∧ (∀ o ∈ ob.buy_side, ∃ e ∈ ob.order_index, e.id = o.id ∧ e.side = Side.Buy)
  ∧ (∀ o ∈ ob.sell_side, ∃ e ∈ ob.order_index, e.id = o.id ∧ e.side = Side.Sell)
  ∧ (∀ b ∈ ob.buy_side, ∀ s ∈ ob.sell_side, b.price < s.price)

instance WF.decidable (ob : OrderBook α) : Decidable (WF ob) := by
  unfold WF; infer_instance

/-- Invariant I6 read off the book top: when both sides are non-empty, the
best (first) buy price is strictly below the best (first) sell price. -/
def noCrossTop (ob : OrderBook α) : Prop :=
  ∀ b s, ob.buy_side.head? = some b → ob.sell_side.head? = some s → b.price < s.price

/-- Invariant I1: an id is in the order index exactly when it rests on
exactly one of the two sides. -/
def indexSideAgree (ob : OrderBook α) : Prop :=
  ∀ x : α, (x ∈ ob.order_index.map IndexEntry.id
      ↔ (x ∈ sideIds ob.buy_side ∨ x ∈ sideIds ob.sell_side))
    ∧ ¬ (x ∈ sideIds ob.buy_side ∧ x ∈ sideIds ob.sell_side)

/-- A small concrete book used to instantiate the universally quantified
theorems: a buy resting at price 3 (qty 5) and a sell resting at price 5
(qty 4). -/
def wbook : OrderBook Nat :=
  (process_limit_order
    (process_limit_order (OrderBook.new Nat) 1 Side.Buy 3 5).2
    2 Side.Sell 5 4).2

/-! ## Lemmas about the matching loop -/

/-- The projection of an order to its immutable fields (everything but the
quantity). -/
def projOrder (o : Order α) : α × Side × Int × Nat :=
  (o.id, o.side, o.price, o.priority)

theorem matchLoop_cost_sum (side : Side) (price : Int) (q : Int)
    (opp : List (Order α)) :
    ((matchLoop side price q opp).records.map OrderMatch.cost).sum
      + (matchLoop side price q opp).taker_cost = 0 := by
  induction opp generalizing q with
  | nil => simp [matchLoop]
  | cons maker rest ih =>
    simp only [matchLoop]
    split
    · simp
    · split
      · split
        · have h := ih (q - min q maker.quantity)
          cases side <;> simp only [List.map_cons, List.sum_cons] <;> linarith
        · cases side <;> simp
      · simp

theorem matchLoop_qty_sum (side : Side) (price : Int) (q : Int)
    (opp : List (Order α)) :
    ((matchLoop side price q opp).records.map OrderMatch.quantity).sum
      = (matchLoop side price q opp).taker_qty := by
  induction opp generalizing q with
  | nil => simp [matchLoop]
  | cons maker rest ih =>
    simp only [matchLoop]
    split
    · simp
    · split
      · split
        · have h := ih (q - min q maker.quantity)
          simp only [List.map_cons, List.sum_cons]
          cases side <;> simp <;> linarith
        · cases side <;> simp
      · simp

theorem matchLoop_qty_split (side : Side) (price : Int) (q : Int)
    (opp : List (Order α)) :
    (matchLoop side price q opp).taker_qty + (matchLoop side price q opp).qty_rem = q := by
  induction opp generalizing q with
  | nil => simp [matchLoop]
  | cons maker rest ih =>
    simp only [matchLoop]
    split
    · simp
    · split
      · split
        · have h := ih (q - min q maker.quantity)
          cases side <;> simp <;> linarith
        · cases side <;> simp
      · simp

theorem matchLoop_qty_rem_nonneg (side : Side) (price : Int) (q : Int)
    (opp : List (Order α)) (hq : 0 ≤ q) :
    0 ≤ (matchLoop side price q opp).qty_rem := by
  induction opp generalizing q with
  | nil => simpa [matchLoop]
  | cons maker rest ih =>
    simp only [matchLoop]
    split
    · simpa
    · split
      · split
        · exact ih (q - min q maker.quantity) (by have := min_le_left q maker.quantity; omega)
        · simp
      · simpa

theorem matchLoop_records_pos (side : Side) (price : Int) (q : Int)
    (opp : List (Order α)) (hpos : ∀ o ∈ opp, 0 < o.quantity) :
    ∀ rec ∈ (matchLoop side price q opp).records, 0 < rec.quantity := by
  induction opp generalizing q with
  | nil => simp [matchLoop]
  | cons maker rest ih =>
    have hm : 0 < maker.quantity := hpos maker (by simp)
    have hrest : ∀ o ∈ rest, 0 < o.quantity := fun o ho => hpos o (by simp [ho])
    simp only [matchLoop]
    split
    · simp
    · next hq =>
      split
      · split
        · intro rec hrec
          simp only [List.mem_cons] at hrec
          rcases hrec with h | h
          · subst h; simp only; exact lt_min (by omega) hm
          · exact ih (q - min q maker.quantity) hrest rec h
        · intro rec hrec
          simp only [List.mem_cons, List.not_mem_nil, or_false] at hrec
          subst hrec; simp only; exact lt_min (by omega) hm
      · simp

theorem matchLoop_opp_pos (side : Side) (price : Int) (q : Int)
    (opp : List (Order α)) (hpos : ∀ o ∈ opp, 0 < o.quantity) :
    ∀ o ∈ (matchLoop side price q opp).opp, 0 < o.quantity := by
  induction opp generalizing q with
  | nil => simp [matchLoop]
  | cons maker rest ih =>
    have hm : 0 < maker.quantity := hpos maker (by simp)
    have hrest : ∀ o ∈ rest, 0 < o.quantity := fun o ho => hpos o (by simp [ho])
    simp only [matchLoop]
    split
    · exact fun o ho => hpos o ho
    · split
      · split
        · exact ih (q - min q maker.quantity) hrest
        · next hne =>
          intro o ho
          simp only [List.mem_cons] at ho
          rcases ho with h | h
          · subst h
            simp only
            have := min_le_right q maker.quantity
            omega
          · exact hrest o h
      · exact fun o ho => hpos o ho

theorem matchLoop_ids (side : Side) (price : Int) (q : Int)
    (opp : List (Order α)) :
    opp.map Order.id
      = (matchLoop side price q opp).removed
        ++ ((matchLoop side price q opp).opp).map Order.id := by
  induction opp generalizing q with
  | nil => simp [matchLoop]
  | cons maker rest ih =>
    simp only [matchLoop]
    split
    · simp
    · split
      · split
        · have h := ih (q - min q maker.quantity)
          simpa using h
        · simp
      · simp

theorem matchLoop_proj (side : Side) (price : Int) (q : Int)
    (opp : List (Order α)) :
    ∃ k, (matchLoop side price q opp).removed = (opp.take k).map Order.id
      ∧ ((matchLoop side price q opp).opp).map projOrder = (opp.drop k).map projOrder := by
  induction opp generalizing q with
  | nil => exact ⟨0, by simp [matchLoop]⟩
  | cons maker rest ih =>
    simp only [matchLoop]
    split
    · exact ⟨0, by simp⟩
    · split
      · split
        · obtain ⟨k, h1, h2⟩ := ih (q - min q maker.quantity)
          exact ⟨k + 1, by simpa using h1, by simpa using h2⟩
        · exact ⟨0, by simp [projOrder]⟩
      · exact ⟨0, by simp⟩

theorem matchLoop_stop (side : Side) (price : Int) (q : Int)
    (opp : List (Order α)) (hq : 0 ≤ q) :
    (matchLoop side price q opp).qty_rem ≠ 0 →
    ∀ m, ((matchLoop side price q opp).opp).head? = some m →
      (side = Side.Buy → price < m.price) ∧ (side = Side.Sell → m.price < price) := by
  induction opp generalizing q with
  | nil => simp [matchLoop]
  | cons maker rest ih =>
    simp only [matchLoop]
    split
    · next hle =>
      dsimp only
      intro hrem m _
      exfalso; omega
    · next hle =>
      split
      · next hsat =>
        split
        · next heq =>
          dsimp only
          have := min_le_left q maker.quantity
          exact ih (q - min q maker.quantity) (by omega)
        · next hne =>
          dsimp only
          intro hrem m _
          exfalso; omega
      · next hsat =>
        dsimp only
        intro _ m hm
        simp only [List.head?_cons, Option.some.injEq] at hm
        subst hm
        cases side with
        | Buy =>
          simp only [decide_eq_true_eq] at hsat
          exact ⟨fun _ => by omega, by simp⟩
        | Sell =>
          simp only [decide_eq_true_eq] at hsat
          exact ⟨by simp, fun _ => by omega⟩

theorem matchLoop_taker_qty_nonneg (side : Side) (price : Int) (q : Int)
    (opp : List (Order α)) (hpos : ∀ o ∈ opp, 0 < o.quantity) :
    0 ≤ (matchLoop side price q opp).taker_qty := by
  rw [← matchLoop_qty_sum]
  exact List.sum_nonneg fun x hx => by
    obtain ⟨rec, hrec, hx'⟩ := List.mem_map.1 hx
    exact hx' ▸ le_of_lt (matchLoop_records_pos side price q opp hpos rec hrec)

theorem matchLoop_records_nil (side : Side) (price : Int) (q : Int)
    (opp : List (Order α)) (hpos : ∀ o ∈ opp, 0 < o.quantity) :
    (matchLoop side price q opp).records = [] ↔ (matchLoop side price q opp).taker_qty = 0 := by
  constructor
  · intro h
    rw [← matchLoop_qty_sum, h]
    simp
  · intro h
    by_contra hne
    have hpos' : 0 < ((matchLoop side price q opp).records.map OrderMatch.quantity).sum :=
      List.sum_pos _ (fun x hx => by
        obtain ⟨rec, hrec, hx'⟩ := List.mem_map.1 hx
        exact hx' ▸ matchLoop_records_pos side price q opp hpos rec hrec)
        (by simpa using hne)
    rw [matchLoop_qty_sum, h] at hpos'
    exact lt_irrefl 0 hpos'

theorem cmcLoop_zero (side : Side) (l : List (Order α)) :
    cmcLoop side 0 l = (0, 0) := by
  cases l <;> simp [cmcLoop]

/-- The read-only dry run walks the opposite side exactly as the matching
loop at the extreme market price does: it computes the taker's accumulated
quantity and cost. -/
theorem cmc_eq_matchLoop (side : Side) (q : Int) (opp : List (Order α))
    (hq : 0 ≤ q)
    (hpos : ∀ o ∈ opp, 0 < o.quantity)
    (hrange : ∀ o ∈ opp, decimalMIN ≤ o.price ∧ o.price ≤ decimalMAX) :
    cmcLoop side q opp
      = ((matchLoop side (marketPrice side) q opp).taker_qty,
         (matchLoop side (marketPrice side) q opp).taker_cost) := by
  induction opp generalizing q with
  | nil => simp [cmcLoop, matchLoop]
  | cons maker rest ih =>
    have hm : 0 < maker.quantity := hpos maker (by simp)
    have hr := hrange maker (by simp)
    have hrest : ∀ o ∈ rest, 0 < o.quantity := fun o ho => hpos o (by simp [ho])
    have hrrest : ∀ o ∈ rest, decimalMIN ≤ o.price ∧ o.price ≤ decimalMAX :=
      fun o ho => hrange o (by simp [ho])
    by_cases hq0 : q = 0
    · subst hq0
      cases side <;> simp [cmcLoop, matchLoop]
    · have hmin := min_le_left q maker.quantity
      have hmin' := min_le_right q maker.quantity
      by_cases hfull : maker.quantity - min q maker.quantity = 0
      · have hihq : 0 ≤ q - min q maker.quantity := by omega
        have hih := ih (q - min q maker.quantity) hihq hrest hrrest
        cases side with
        | Buy =>
          have hsat : maker.price ≤ marketPrice Side.Buy := by
            simp only [marketPrice]; exact hr.2
          simp only [cmcLoop, matchLoop, if_neg hq0, decide_eq_true_eq]
          rw [if_neg (by omega : ¬ q ≤ 0), if_pos hsat, if_pos hfull, hih]
        | Sell =>
          have hsat : marketPrice Side.Sell ≤ maker.price := by
            simp only [marketPrice]; exact hr.1
          simp only [cmcLoop, matchLoop, if_neg hq0, decide_eq_true_eq]
          rw [if_neg (by omega : ¬ q ≤ 0), if_pos hsat, if_pos hfull, hih]
      · have hsq : min q maker.quantity = q := by omega
        cases side with
        | Buy =>
          have hsat : maker.price ≤ marketPrice Side.Buy := by
            simp only [marketPrice]; exact hr.2
          simp only [cmcLoop, matchLoop, if_neg hq0, decide_eq_true_eq]
          rw [if_neg (by omega : ¬ q ≤ 0), if_pos hsat, if_neg hfull, hsq]
          simp [cmcLoop_zero]
        | Sell =>
          have hsat : marketPrice Side.Sell ≤ maker.price := by
            simp only [marketPrice]; exact hr.1
          simp only [cmcLoop, matchLoop, if_neg hq0, decide_eq_true_eq]
          rw [if_neg (by omega : ¬ q ≤ 0), if_pos hsat, if_neg hfull, hsq]
          simp [cmcLoop_zero]

/-! ## Lemmas about side insertion and removal -/

theorem bsInsert_perm (keep : Int → Int → Bool) (o : Order α) (l : List (Order α)) :
    (bsInsert keep o l).Perm (o :: l) := by
  induction l with
  | nil => simp [bsInsert]
  | cons x xs ih =>
    simp only [bsInsert]
    split
    · exact (ih.cons x).trans (List.Perm.swap o x xs)
    · exact List.Perm.refl _

theorem mem_bsInsert (keep : Int → Int → Bool) (o : Order α) (l : List (Order α))
    (y : Order α) : y ∈ bsInsert keep o l ↔ y = o ∨ y ∈ l := by
  rw [(bsInsert_perm keep o l).mem_iff]
  simp

theorem bsInsert_pairwise {P : Int → Int → Prop} (keep : Int → Int → Bool)
    (hkeepT : ∀ a b, keep a b = true → P a b)
    (hkeepF : ∀ a b, keep a b = false → P b a)
    (htrans : ∀ a b c, P a b → P b c → P a c)
    (o : Order α) (l : List (Order α))
    (hl : l.Pairwise (fun x y => P x.price y.price)) :
    (bsInsert keep o l).Pairwise (fun x y => P x.price y.price) := by
  induction l with
  | nil => simp [bsInsert]
  | cons x xs ih =>
    rcases List.pairwise_cons.1 hl with ⟨hx, hxs⟩
    simp only [bsInsert]
    split
    · next hk =>
      refine List.pairwise_cons.2 ⟨?_, ih hxs⟩
      intro y hy
      rcases List.mem_cons.1 ((bsInsert_perm keep o xs).mem_iff.1 hy) with h | h
      · exact h ▸ hkeepT _ _ hk
      · exact hx y h
    · next hk =>
      have hk' : keep x.price o.price = false := by
        revert hk; cases keep x.price o.price <;> simp
      refine List.pairwise_cons.2 ⟨?_, hl⟩
      intro y hy
      rcases List.mem_cons.1 hy with rfl | h
      · exact hkeepF _ _ hk'
      · exact htrans _ _ _ (hkeepF _ _ hk') (hx y h)

/-! ## Lemmas about the order index -/

theorem indexContains_iff (idx : List (IndexEntry α)) (id : α) :
    indexContains idx id = true ↔ id ∈ idx.map IndexEntry.id := by
  simp only [indexContains, List.any_eq_true, decide_eq_true_eq, List.mem_map]

theorem indexLookup_eq_none (idx : List (IndexEntry α)) (id : α) :
    indexLookup idx id = none ↔ id ∉ idx.map IndexEntry.id := by
  rw [indexLookup, List.find?_eq_none]
  constructor
  · intro h hmem
    obtain ⟨e, he, heq⟩ := List.mem_map.1 hmem
    exact (by simpa using h e he : e.id ≠ id) heq
  · intro h e he
    simp only [decide_eq_true_eq]
    intro heq
    exact h (List.mem_map.2 ⟨e, he, heq⟩)

theorem indexLookup_some {idx : List (IndexEntry α)} {id : α} {e : IndexEntry α}
    (h : indexLookup idx id = some e) : e ∈ idx ∧ e.id = id := by
  refine ⟨List.mem_of_find?_eq_some h, ?_⟩
  have h2 := List.find?_some h
  simpa using h2

/-- An element never satisfying the removal test survives `eraseP` by id. -/
theorem mem_eraseP_ne {l : List α} {a b : α} (h : a ≠ b) :
    a ∈ l.eraseP (fun x => decide (x = b)) ↔ a ∈ l :=
  List.mem_eraseP_of_neg (by simpa using h)

/-- After erasing an id from a duplicate-free list, the id is gone. -/
theorem not_mem_eraseP_self {l : List α} (h : l.Nodup) (a : α) :
    a ∉ l.eraseP (fun x => decide (x = a)) := by
  induction l with
  | nil => simp
  | cons x xs ih =>
    rcases List.nodup_cons.1 h with ⟨hx, hxs⟩
    by_cases hxa : x = a
    · subst hxa
      rw [List.eraseP_cons_of_pos (by simp)]
      exact hx
    · rw [List.eraseP_cons_of_neg (by simpa using hxa)]
      intro hmem
      rcases List.mem_cons.1 hmem with h' | h'
      · exact hxa h'.symm
      · exact ih hxs h'

theorem indexRemove_ids (idx : List (IndexEntry α)) (id : α) :
    (indexRemove idx id).map IndexEntry.id
      = (idx.map IndexEntry.id).eraseP (fun x => decide (x = id)) := by
  rw [List.eraseP_map]
  rfl

theorem indexRemove_nodup {idx : List (IndexEntry α)} (id : α)
    (h : (idx.map IndexEntry.id).Nodup) :
    ((indexRemove idx id).map IndexEntry.id).Nodup :=
  List.Nodup.sublist ((List.eraseP_sublist idx).map IndexEntry.id) h

theorem mem_of_mem_indexRemove {idx : List (IndexEntry α)} {e : IndexEntry α} {id : α}
    (h : e ∈ indexRemove idx id) : e ∈ idx :=
  List.mem_of_mem_eraseP h

theorem mem_indexRemove_of_ne {idx : List (IndexEntry α)} {e : IndexEntry α} {id : α}
    (h : e.id ≠ id) : e ∈ indexRemove idx id ↔ e ∈ idx :=
  List.mem_eraseP_of_neg (by simpa using h)

theorem id_ne_of_mem_indexRemove {idx : List (IndexEntry α)} {e : IndexEntry α} {id : α}
    (hnd : (idx.map IndexEntry.id).Nodup) (h : e ∈ indexRemove idx id) : e.id ≠ id := by
  intro heq
  have : e.id ∈ (indexRemove idx id).map IndexEntry.id := List.mem_map_of_mem _ h
  rw [indexRemove_ids, heq] at this
  exact not_mem_eraseP_self hnd id this

theorem removeIds_nodup {idx : List (IndexEntry α)} (ids : List α)
    (h : (idx.map IndexEntry.id).Nodup) :
    ((removeIds idx ids).map IndexEntry.id).Nodup := by
  induction ids generalizing idx with
  | nil => exact h
  | cons rid rids ih => exact ih (indexRemove_nodup rid h)

theorem mem_removeIds {idx : List (IndexEntry α)} {ids : List α} {e : IndexEntry α}
    (h : (idx.map IndexEntry.id).Nodup) :
    e ∈ removeIds idx ids ↔ e ∈ idx ∧ e.id ∉ ids := by
  induction ids generalizing idx with
  | nil => simp [removeIds]
  | cons rid rids ih =>
    have hstep : removeIds idx (rid :: rids) = removeIds (indexRemove idx rid) rids := rfl
    rw [hstep, ih (indexRemove_nodup rid h)]
    constructor
    · rintro ⟨he, hni⟩
      refine ⟨mem_of_mem_indexRemove he, ?_⟩
      intro hmem
      rcases List.mem_cons.1 hmem with h' | h'
      · exact id_ne_of_mem_indexRemove h he h'
      · exact hni h'
    · rintro ⟨he, hni⟩
      have hne : e.id ≠ rid := fun h' => hni (List.mem_cons.2 (Or.inl h'))
      exact ⟨(mem_indexRemove_of_ne hne).2 he, fun h' => hni (List.mem_cons.2 (Or.inr h'))⟩

/-! ## Lemmas about side removal -/

theorem bsRemove_ids (id : α) (l : List (Order α)) :
    sideIds (bsRemove id l) = (sideIds l).eraseP (fun x => decide (x = id)) := by
  show (bsRemove id l).map Order.id = ((l.map Order.id).eraseP fun x => decide (x = id))
  rw [List.eraseP_map]
  rfl

theorem mem_of_mem_bsRemove {l : List (Order α)} {o : Order α} {id : α}
    (h : o ∈ bsRemove id l) : o ∈ l :=
  List.mem_of_mem_eraseP h

theorem mem_bsRemove_of_ne {l : List (Order α)} {o : Order α} {id : α}
    (h : o.id ≠ id) : o ∈ bsRemove id l ↔ o ∈ l :=
  List.mem_eraseP_of_neg (by simpa using h)

theorem bsRemove_sublist (id : α) (l : List (Order α)) :
    List.Sublist (bsRemove id l) l :=
  List.eraseP_sublist l

/-! ## Transfer along the immutable-field projection -/

theorem proj_ids {l₁ l₂ : List (Order α)}
    (hmap : l₁.map projOrder = l₂.map projOrder) : sideIds l₁ = sideIds l₂ := by
  have h := congrArg (List.map Prod.fst) hmap
  rw [List.map_map, List.map_map] at h
  exact h

theorem proj_prices {l₁ l₂ : List (Order α)}
    (hmap : l₁.map projOrder = l₂.map projOrder) :
    l₁.map Order.price = l₂.map Order.price := by
  have h := congrArg (List.map (fun t : α × Side × Int × Nat => t.2.2.1)) hmap
  rw [List.map_map, List.map_map] at h
  exact h

theorem proj_mem {l₁ l₂ : List (Order α)}
    (hmap : l₁.map projOrder = l₂.map projOrder) {o : Order α} (ho : o ∈ l₁) :
    ∃ o' ∈ l₂, o'.id = o.id ∧ o'.side = o.side ∧ o'.price = o.price
      ∧ o'.priority = o.priority := by
  have hm : projOrder o ∈ l₂.map projOrder := hmap ▸ List.mem_map_of_mem _ ho
  obtain ⟨o', ho', heq⟩ := List.mem_map.1 hm
  have h1 : o'.id = o.id ∧ o'.side = o.side ∧ o'.price = o.price ∧ o'.priority = o.priority := by
    simpa [projOrder, Prod.ext_iff] using heq
  exact ⟨o', ho', h1⟩

theorem pairwise_price_transfer {P : Int → Int → Prop} {l₁ l₂ : List (Order α)}
    (hmap : l₁.map projOrder = l₂.map projOrder)
    (h : l₂.Pairwise fun x y => P x.price y.price) :
    l₁.Pairwise fun x y => P x.price y.price := by
  have h2 : (l₂.map Order.price).Pairwise P := List.pairwise_map.mpr h
  rw [← proj_prices hmap] at h2
  exact List.pairwise_map.mp h2

theorem sideIds_bsInsert_perm (keep : Int → Int → Bool) (o : Order α)
    (l : List (Order α)) :
    (sideIds (bsInsert keep o l)).Perm (o.id :: sideIds l) :=
  (bsInsert_perm keep o l).map Order.id

/-! ## Preservation of the invariants -/

/-- The invariants hold for the empty book. -/
theorem wf_new : WF (OrderBook.new α) := by
  constructor <;> simp [OrderBook.new, sideIds]

/-- The operation `process_limit_order` preserves the invariants. -/
theorem wf_process_limit_order (ob : OrderBook α) (id : α) (side : Side)
    (price q : Int) (hwf : WF ob) :
    WF (process_limit_order ob id side price q).2 := by
  unfold process_limit_order
  split
  · exact hwf
  · next hcont =>
    split
    · exact hwf
    · next hqle =>
      obtain ⟨hbs, hss, hbp, hsp, hbsort, hssort, hbprio, hsprio, hinodup, hsnodup,
        hits, hbti, hsti, hcross⟩ := hwf
      have hid : id ∉ ob.order_index.map IndexEntry.id :=
        fun hm => hcont ((indexContains_iff _ _).2 hm)
      have hid_buy : id ∉ sideIds ob.buy_side := by
        intro hm
        obtain ⟨o, ho, hoid⟩ := List.mem_map.1 hm
        obtain ⟨e, he, heid, -⟩ := hbti o ho
        exact hid (List.mem_map.2 ⟨e, he, by rw [heid, hoid]⟩)
      have hid_sell : id ∉ sideIds ob.sell_side := by
        intro hm
        obtain ⟨o, ho, hoid⟩ := List.mem_map.1 hm
        obtain ⟨e, he, heid, -⟩ := hsti o ho
        exact hid (List.mem_map.2 ⟨e, he, by rw [heid, hoid]⟩)
      cases side with
      | Buy =>
        have hids := matchLoop_ids Side.Buy price q ob.sell_side
        obtain ⟨k, hremk, hproj⟩ := matchLoop_proj Side.Buy price q ob.sell_side
        have hoppos := matchLoop_opp_pos Side.Buy price q ob.sell_side hsp
        have hdk : ((ob.sell_side.drop k).map projOrder)
            = (matchLoop Side.Buy price q ob.sell_side).opp.map projOrder := hproj.symm
        -- the remaining sell side, compared with the original
        have hopp_side : ∀ o ∈ (matchLoop Side.Buy price q ob.sell_side).opp,
            o.side = Side.Sell := by
          intro o ho
          obtain ⟨o', ho', -, hside, -, -⟩ := proj_mem hproj ho
          exact hside ▸ hss o' (List.mem_of_mem_drop ho')
        have hopp_prio : ∀ o ∈ (matchLoop Side.Buy price q ob.sell_side).opp,
            o.priority ≤ ob.priority := by
          intro o ho
          obtain ⟨o', ho', -, -, -, hprio⟩ := proj_mem hproj ho
          exact hprio ▸ hsprio o' (List.mem_of_mem_drop ho')
        have hopp_sort : (matchLoop Side.Buy price q ob.sell_side).opp.Pairwise
            (fun a b => a.price ≤ b.price) :=
          pairwise_price_transfer hproj
            (List.Pairwise.sublist (List.drop_sublist k _) hssort)
        have hopp_cross : ∀ b ∈ ob.buy_side,
            ∀ s ∈ (matchLoop Side.Buy price q ob.sell_side).opp, b.price < s.price := by
          intro b hb s hs
          obtain ⟨s', hs', -, -, hsprice, -⟩ := proj_mem hproj hs
          exact hsprice ▸ hcross b hb s' (List.mem_of_mem_drop hs')
        have hremoved_sub : ∀ x ∈ (matchLoop Side.Buy price q ob.sell_side).removed,
            x ∈ sideIds ob.sell_side := by
          intro x hx
          rw [show sideIds ob.sell_side
              = (matchLoop Side.Buy price q ob.sell_side).removed
                ++ sideIds (matchLoop Side.Buy price q ob.sell_side).opp from hids]
          exact List.mem_append.2 (Or.inl hx)
        have hoppids : sideIds ob.sell_side
            = (matchLoop Side.Buy price q ob.sell_side).removed
              ++ sideIds (matchLoop Side.Buy price q ob.sell_side).opp := hids
        have hsell_nodup : (sideIds ob.sell_side).Nodup := List.Nodup.of_append_right hsnodup
        have hdisj : List.Disjoint (sideIds ob.buy_side) (sideIds ob.sell_side) :=
          List.disjoint_of_nodup_append hsnodup
        have hdisj2 : List.Disjoint (matchLoop Side.Buy price q ob.sell_side).removed
            (sideIds (matchLoop Side.Buy price q ob.sell_side).opp) :=
          List.disjoint_of_nodup_append (hoppids ▸ hsell_nodup)
        have hsnodup1 : (sideIds ob.buy_side
            ++ sideIds (matchLoop Side.Buy price q ob.sell_side).opp).Nodup :=
          List.Nodup.sublist
            ((List.append_sublist_append_left _).mpr
              (hoppids ▸ List.sublist_append_right _ _)) hsnodup
        have hinodup1 : ((removeIds ob.order_index
            (matchLoop Side.Buy price q ob.sell_side).removed).map IndexEntry.id).Nodup :=
          removeIds_nodup _ hinodup
        have hits1 : ∀ e ∈ removeIds ob.order_index
            (matchLoop Side.Buy price q ob.sell_side).removed,
            e.id ∈ sideIds (match e.side with
              | Side.Buy => ob.buy_side
              | Side.Sell => (matchLoop Side.Buy price q ob.sell_side).opp) := by
          intro e he
          obtain ⟨he', hni⟩ := (mem_removeIds hinodup).1 he
          have := hits e he'
          cases heside : e.side with
          | Buy => rw [heside] at this; exact this
          | Sell =>
            rw [heside] at this
            simp only
            rw [hoppids] at this
            rcases List.mem_append.1 this with h | h
            · exact absurd h hni
            · exact h
        have hbti1 : ∀ o ∈ ob.buy_side, ∃ e ∈ removeIds ob.order_index
            (matchLoop Side.Buy price q ob.sell_side).removed,
            e.id = o.id ∧ e.side = Side.Buy := by
          intro o ho
          obtain ⟨e, he, heid, heside⟩ := hbti o ho
          refine ⟨e, (mem_removeIds hinodup).2 ⟨he, ?_⟩, heid, heside⟩
          intro hmem
          exact hdisj (List.mem_map.2 ⟨o, ho, heid ▸ rfl⟩) (heid ▸ hremoved_sub _ hmem)
        have hsti1 : ∀ o ∈ (matchLoop Side.Buy price q ob.sell_side).opp,
            ∃ e ∈ removeIds ob.order_index
              (matchLoop Side.Buy price q ob.sell_side).removed,
            e.id = o.id ∧ e.side = Side.Sell := by
          intro o ho
          obtain ⟨o', ho', hoid, -, -, -⟩ := proj_mem hproj ho
          obtain ⟨e, he, heid, heside⟩ := hsti o' (List.mem_of_mem_drop ho')
          refine ⟨e, (mem_removeIds hinodup).2 ⟨he, ?_⟩, by rw [heid, hoid], heside⟩
          intro hmem
          have hoin : o.id ∈ sideIds (matchLoop Side.Buy price q ob.sell_side).opp :=
            List.mem_map.2 ⟨o, ho, rfl⟩
          exact hdisj2 ((heid.trans hoid) ▸ hmem) hoin
        dsimp only
        split
        · -- no residual: the book after matching only
          exact ⟨hbs, hopp_side, hbp, hoppos, hbsort, hopp_sort, hbprio, hopp_prio,
            hinodup1, hsnodup1, hits1, hbti1, hsti1, hopp_cross⟩
        · next hremne =>
          -- residual rests: inserted into the buy side, the index, and the counter
          dsimp only
          have hrempos : 0 < (matchLoop Side.Buy price q ob.sell_side).qty_rem := by
            have := matchLoop_qty_rem_nonneg Side.Buy price q ob.sell_side (by omega)
            omega
          have hstop := matchLoop_stop Side.Buy price q ob.sell_side (by omega) hremne
          refine ⟨?_, hopp_side, ?_, hoppos, ?_, hopp_sort, ?_, ?_, ?_, ?_, ?_, ?_, ?_, ?_⟩
          · intro o ho
            rcases (mem_bsInsert _ _ _ o).1 ho with rfl | h
            · rfl
            · exact hbs o h
          · intro o ho
            rcases (mem_bsInsert _ _ _ o).1 ho with rfl | h
            · exact hrempos
            · exact hbp o h
          · exact bsInsert_pairwise (P := fun a b => b ≤ a) (fun x p => decide (p ≤ x))
              (fun a b h => by simpa using h)
              (fun a b h => le_of_lt (by simp at h; omega))
              (fun a b c h1 h2 => le_trans h2 h1) _ _ hbsort
          · intro o ho
            rcases (mem_bsInsert _ _ _ o).1 ho with rfl | h
            · exact le_refl _
            · exact le_trans (hbprio o h) (Nat.le_succ _)
          · intro o ho
            exact le_trans (hopp_prio o ho) (Nat.le_succ _)
          · refine List.nodup_cons.2 ⟨?_, hinodup1⟩
            intro hmem
            obtain ⟨e, he, heid⟩ := List.mem_map.1 hmem
            obtain ⟨he', -⟩ := (mem_removeIds hinodup).1 he
            exact hid (List.mem_map.2 ⟨e, he', heid⟩)
          · have hp1 : (sideIds (buyAdd
                ⟨id, Side.Buy, price, (matchLoop Side.Buy price q ob.sell_side).qty_rem,
                  ob.priority + 1⟩ ob.buy_side)
                ++ sideIds (matchLoop Side.Buy price q ob.sell_side).opp).Perm
                (id :: (sideIds ob.buy_side
                  ++ sideIds (matchLoop Side.Buy price q ob.sell_side).opp)) := by
              refine List.Perm.trans
                ((sideIds_bsInsert_perm _ _ _).append_right _) (List.Perm.refl _)
            refine hp1.nodup_iff.2 (List.nodup_cons.2 ⟨?_, hsnodup1⟩)
            intro hmem
            rcases List.mem_append.1 hmem with h | h
            · exact hid_buy h
            · exact hid_sell ((hoppids ▸ List.mem_append.2 (Or.inr h)) : id ∈ sideIds ob.sell_side)
          · intro e he
            rcases List.mem_cons.1 he with rfl | he'
            · simp only
              exact List.mem_map.2 ⟨_, (mem_bsInsert _ _ _ _).2 (Or.inl rfl), rfl⟩
            · have := hits1 e he'
              cases heside : e.side with
              | Buy =>
                rw [heside] at this
                simp only at this ⊢
                exact ((sideIds_bsInsert_perm _ _ _).mem_iff).2 (List.mem_cons.2 (Or.inr this))
              | Sell =>
                rw [heside] at this
                exact this
          · intro o ho
            rcases (mem_bsInsert _ _ _ o).1 ho with rfl | h
            · exact ⟨⟨id, Side.Buy, price⟩, List.mem_cons.2 (Or.inl rfl), rfl, rfl⟩
            · obtain ⟨e, he, heid, heside⟩ := hbti1 o h
              exact ⟨e, List.mem_cons.2 (Or.inr he), heid, heside⟩
          · intro o ho
            obtain ⟨e, he, heid, heside⟩ := hsti1 o ho
            exact ⟨e, List.mem_cons.2 (Or.inr he), heid, heside⟩
          · intro b hb s hs
            rcases (mem_bsInsert _ _ _ b).1 hb with rfl | h
            · -- the freshly rested taker: the loop stopped on the price test
              cases hopp : (matchLoop Side.Buy price q ob.sell_side).opp with
              | nil => rw [hopp] at hs; exact absurd hs (List.not_mem_nil s)
              | cons m tail =>
                have hm := (hstop m (by rw [hopp]; rfl)).1 rfl
                rw [hopp] at hs hopp_sort
                rcases List.mem_cons.1 hs with rfl | hs'
                · exact hm
                · have := (List.pairwise_cons.1 hopp_sort).1 s hs'
                  simp only
                  omega
            · exact hopp_cross b h s hs
      | Sell =>
        have hids := matchLoop_ids Side.Sell price q ob.buy_side
        obtain ⟨k, hremk, hproj⟩ := matchLoop_proj Side.Sell price q ob.buy_side
        have hoppos := matchLoop_opp_pos Side.Sell price q ob.buy_side hbp
        have hopp_side : ∀ o ∈ (matchLoop Side.Sell price q ob.buy_side).opp,
            o.side = Side.Buy := by
          intro o ho
          obtain ⟨o', ho', -, hside, -, -⟩ := proj_mem hproj ho
          exact hside ▸ hbs o' (List.mem_of_mem_drop ho')
        have hopp_prio : ∀ o ∈ (matchLoop Side.Sell price q ob.buy_side).opp,
            o.priority ≤ ob.priority := by
          intro o ho
          obtain ⟨o', ho', -, -, -, hprio⟩ := proj_mem hproj ho
          exact hprio ▸ hbprio o' (List.mem_of_mem_drop ho')
        have hopp_sort : (matchLoop Side.Sell price q ob.buy_side).opp.Pairwise
            (fun a b => b.price ≤ a.price) :=
          pairwise_price_transfer (P := fun a b => b ≤ a) hproj
            (List.Pairwise.sublist (List.drop_sublist k _) hbsort)
        have hopp_cross : ∀ b ∈ (matchLoop Side.Sell price q ob.buy_side).opp,
            ∀ s ∈ ob.sell_side, b.price < s.price := by
          intro b hb s hs
          obtain ⟨b', hb', -, -, hbprice, -⟩ := proj_mem hproj hb
          exact hbprice ▸ hcross b' (List.mem_of_mem_drop hb') s hs
        have hremoved_sub : ∀ x ∈ (matchLoop Side.Sell price q ob.buy_side).removed,
            x ∈ sideIds ob.buy_side := by
          intro x hx
          rw [show sideIds ob.buy_side
              = (matchLoop Side.Sell price q ob.buy_side).removed
                ++ sideIds (matchLoop Side.Sell price q ob.buy_side).opp from hids]
          exact List.mem_append.2 (Or.inl hx)
        have hoppids : sideIds ob.buy_side
            = (matchLoop Side.Sell price q ob.buy_side).removed
              ++ sideIds (matchLoop Side.Sell price q ob.buy_side).opp := hids
        have hbuy_nodup : (sideIds ob.buy_side).Nodup := List.Nodup.of_append_left hsnodup
        have hdisj : List.Disjoint (sideIds ob.buy_side) (sideIds ob.sell_side) :=
          List.disjoint_of_nodup_append hsnodup
        have hdisj2 : List.Disjoint (matchLoop Side.Sell price q ob.buy_side).removed
            (sideIds (matchLoop Side.Sell price q ob.buy_side).opp) :=
          List.disjoint_of_nodup_append (hoppids ▸ hbuy_nodup)
        have hsnodup1 : (sideIds (matchLoop Side.Sell price q ob.buy_side).opp
            ++ sideIds ob.sell_side).Nodup :=
          List.Nodup.sublist
            ((List.append_sublist_append_right _).mpr
              (hoppids ▸ List.sublist_append_right _ _)) hsnodup
        have hinodup1 : ((removeIds ob.order_index
            (matchLoop Side.Sell price q ob.buy_side).removed).map IndexEntry.id).Nodup :=
          removeIds_nodup _ hinodup
        have hits1 : ∀ e ∈ removeIds ob.order_index
            (matchLoop Side.Sell price q ob.buy_side).removed,
            e.id ∈ sideIds (match e.side with
              | Side.Buy => (matchLoop Side.Sell price q ob.buy_side).opp
              | Side.Sell => ob.sell_side) := by
          intro e he
          obtain ⟨he', hni⟩ := (mem_removeIds hinodup).1 he
          have := hits e he'
          cases heside : e.side with
          | Sell => rw [heside] at this; exact this
          | Buy =>
            rw [heside] at this
            simp only
            rw [hoppids] at this
            rcases List.mem_append.1 this with h | h
            · exact absurd h hni
            · exact h
        have hbti1 : ∀ o ∈ (matchLoop Side.Sell price q ob.buy_side).opp,
            ∃ e ∈ removeIds ob.order_index
              (matchLoop Side.Sell price q ob.buy_side).removed,
            e.id = o.id ∧ e.side = Side.Buy := by
          intro o ho
          obtain ⟨o', ho', hoid, -, -, -⟩ := proj_mem hproj ho
          obtain ⟨e, he, heid, heside⟩ := hbti o' (List.mem_of_mem_drop ho')
          refine ⟨e, (mem_removeIds hinodup).2 ⟨he, ?_⟩, by rw [heid, hoid], heside⟩
          intro hmem
          have hoin : o.id ∈ sideIds (matchLoop Side.Sell price q ob.buy_side).opp :=
            List.mem_map.2 ⟨o, ho, rfl⟩
          exact hdisj2 ((heid.trans hoid) ▸ hmem) hoin
        have hsti1 : ∀ o ∈ ob.sell_side, ∃ e ∈ removeIds ob.order_index
            (matchLoop Side.Sell price q ob.buy_side).removed,
            e.id = o.id ∧ e.side = Side.Sell := by
          intro o ho
          obtain ⟨e, he, heid, heside⟩ := hsti o ho
          refine ⟨e, (mem_removeIds hinodup).2 ⟨he, ?_⟩, heid, heside⟩
          intro hmem
          exact hdisj (heid ▸ hremoved_sub _ hmem) (List.mem_map.2 ⟨o, ho, heid ▸ rfl⟩)
        dsimp only
        split
        · exact ⟨hopp_side, hss, hoppos, hsp, hopp_sort, hssort, hopp_prio, hsprio,
            hinodup1, hsnodup1, hits1, hbti1, hsti1, hopp_cross⟩
        · next hremne =>
          dsimp only
          have hrempos : 0 < (matchLoop Side.Sell price q ob.buy_side).qty_rem := by
            have := matchLoop_qty_rem_nonneg Side.Sell price q ob.buy_side (by omega)
            omega
          have hstop := matchLoop_stop Side.Sell price q ob.buy_side (by omega) hremne
          refine ⟨hopp_side, ?_, hoppos, ?_, hopp_sort, ?_, ?_, ?_, ?_, ?_, ?_, ?_, ?_, ?_⟩
          · intro o ho
            rcases (mem_bsInsert _ _ _ o).1 ho with rfl | h
            · rfl
            · exact hss o h
          · intro o ho
            rcases (mem_bsInsert _ _ _ o).1 ho with rfl | h
            · exact hrempos
            · exact hsp o h
          · exact bsInsert_pairwise (P := fun a b => a ≤ b) (fun x p => decide (x ≤ p))
              (fun a b h => by simpa using h)
              (fun a b h => le_of_lt (by simp at h; omega))
              (fun a b c h1 h2 => le_trans h1 h2) _ _ hssort
          · intro o ho
            exact le_trans (hopp_prio o ho) (Nat.le_succ _)
          · intro o ho
            rcases (mem_bsInsert _ _ _ o).1 ho with rfl | h
            · exact le_refl _
            · exact le_trans (hsprio o h) (Nat.le_succ _)
          · refine List.nodup_cons.2 ⟨?_, hinodup1⟩
            intro hmem
            obtain ⟨e, he, heid⟩ := List.mem_map.1 hmem
            obtain ⟨he', -⟩ := (mem_removeIds hinodup).1 he
            exact hid (List.mem_map.2 ⟨e, he', heid⟩)
          · have hp1 : (sideIds (matchLoop Side.Sell price q ob.buy_side).opp
                ++ sideIds (sellAdd
                  ⟨id, Side.Sell, price, (matchLoop Side.Sell price q ob.buy_side).qty_rem,
                    ob.priority + 1⟩ ob.sell_side)).Perm
                (sideIds (matchLoop Side.Sell price q ob.buy_side).opp
                  ++ (id :: sideIds ob.sell_side)) :=
              (sideIds_bsInsert_perm _ _ _).append_left _
            refine hp1.nodup_iff.2 ?_
            rw [List.nodup_middle]
            refine List.nodup_cons.2 ⟨?_, hsnodup1⟩
            intro hmem
            rcases List.mem_append.1 hmem with h | h
            · exact hid_buy ((hoppids ▸ List.mem_append.2 (Or.inr h)) : id ∈ sideIds ob.buy_side)
            · exact hid_sell h
          · intro e he
            rcases List.mem_cons.1 he with rfl | he'
            · simp only
              exact List.mem_map.2 ⟨_, (mem_bsInsert _ _ _ _).2 (Or.inl rfl), rfl⟩
            · have := hits1 e he'
              cases heside : e.side with
              | Sell =>
                rw [heside] at this
                simp only at this ⊢
                exact ((sideIds_bsInsert_perm _ _ _).mem_iff).2 (List.mem_cons.2 (Or.inr this))
              | Buy =>
                rw [heside] at this
                exact this
          · intro o ho
            obtain ⟨e, he, heid, heside⟩ := hbti1 o ho
            exact ⟨e, List.mem_cons.2 (Or.inr he), heid, heside⟩
          · intro o ho
            rcases (mem_bsInsert _ _ _ o).1 ho with rfl | h
            · exact ⟨⟨id, Side.Sell, price⟩, List.mem_cons.2 (Or.inl rfl), rfl, rfl⟩
            · obtain ⟨e, he, heid, heside⟩ := hsti1 o h
              exact ⟨e, List.mem_cons.2 (Or.inr he), heid, heside⟩
          · intro b hb s hs
            rcases (mem_bsInsert _ _ _ s).1 hs with rfl | h
            · -- the freshly rested taker: the loop stopped on the price test
              cases hopp : (matchLoop Side.Sell price q ob.buy_side).opp with
              | nil => rw [hopp] at hb; exact absurd hb (List.not_mem_nil b)
              | cons m tail =>
                have hm := (hstop m (by rw [hopp]; rfl)).2 rfl
                rw [hopp] at hb hopp_sort
                rcases List.mem_cons.1 hb with rfl | hb'
                · exact hm
                · have := (List.pairwise_cons.1 hopp_sort).1 b hb'
                  simp only
                  omega
            · exact hopp_cross b hb s h

theorem id_ne_of_mem_bsRemove {l : List (Order α)} (hnd : (sideIds l).Nodup)
    {o : Order α} {id : α} (h : o ∈ bsRemove id l) : o.id ≠ id := by
  intro heq
  have hmem : o.id ∈ sideIds (bsRemove id l) := List.mem_map.2 ⟨o, h, rfl⟩
  rw [bsRemove_ids, heq] at hmem
  exact not_mem_eraseP_self hnd id hmem

/-- The operation `cancel_order` preserves the invariants. -/
theorem wf_cancel_order (ob : OrderBook α) (id : α) (hwf : WF ob) :
    WF (cancel_order ob id).2 := by
  obtain ⟨hbs, hss, hbp, hsp, hbsort, hssort, hbprio, hsprio, hinodup, hsnodup,
    hits, hbti, hsti, hcross⟩ := hwf
  have hbuy_nodup : (sideIds ob.buy_side).Nodup := List.Nodup.of_append_left hsnodup
  have hsell_nodup : (sideIds ob.sell_side).Nodup := List.Nodup.of_append_right hsnodup
  have hdisj : List.Disjoint (sideIds ob.buy_side) (sideIds ob.sell_side) :=
    List.disjoint_of_nodup_append hsnodup
  unfold cancel_order
  cases hlook : indexLookup ob.order_index id with
  | none =>
    exact ⟨hbs, hss, hbp, hsp, hbsort, hssort, hbprio, hsprio, hinodup, hsnodup,
      hits, hbti, hsti, hcross⟩
  | some e =>
    obtain ⟨he, heid⟩ := indexLookup_some hlook
    cases heside : e.side with
    | Buy =>
      have hidbuy : id ∈ sideIds ob.buy_side := by
        have := hits e he
        rw [heside] at this
        exact heid ▸ this
      dsimp only
      rw [heside]
      dsimp only
      refine ⟨?_, hss, ?_, hsp, ?_, hssort, ?_, hsprio, indexRemove_nodup id hinodup,
        ?_, ?_, ?_, ?_, ?_⟩
      · exact fun o ho => hbs o (mem_of_mem_bsRemove ho)
      · exact fun o ho => hbp o (mem_of_mem_bsRemove ho)
      · exact List.Pairwise.sublist (bsRemove_sublist id _) hbsort
      · exact fun o ho => hbprio o (mem_of_mem_bsRemove ho)
      · refine List.Nodup.sublist ?_ hsnodup
        exact (List.append_sublist_append_right _).mpr
          ((bsRemove_sublist id _).map Order.id)
      · intro f hf
        have hf' := mem_of_mem_indexRemove hf
        have hfne := id_ne_of_mem_indexRemove hinodup hf
        have := hits f hf'
        cases hfside : f.side with
        | Buy =>
          rw [hfside] at this
          simp only
          rw [bsRemove_ids]
          exact (mem_eraseP_ne hfne).2 this
        | Sell =>
          rw [hfside] at this
          exact this
      · intro o ho
        obtain ⟨f, hf, hfid, hfside⟩ := hbti o (mem_of_mem_bsRemove ho)
        have hone : o.id ≠ id := id_ne_of_mem_bsRemove hbuy_nodup ho
        exact ⟨f, (mem_indexRemove_of_ne (hfid ▸ hone)).2 hf, hfid, hfside⟩
      · intro o ho
        obtain ⟨f, hf, hfid, hfside⟩ := hsti o ho
        have hone : o.id ≠ id := by
          intro heq'
          exact hdisj (heq' ▸ hidbuy) (List.mem_map.2 ⟨o, ho, rfl⟩)
        exact ⟨f, (mem_indexRemove_of_ne (hfid ▸ hone)).2 hf, hfid, hfside⟩
      · exact fun b hb s hs => hcross b (mem_of_mem_bsRemove hb) s hs
    | Sell =>
      have hidsell : id ∈ sideIds ob.sell_side := by
        have := hits e he
        rw [heside] at this
        exact heid ▸ this
      dsimp only
      rw [heside]
      dsimp only
      refine ⟨hbs, ?_, hbp, ?_, hbsort, ?_, hbprio, ?_, indexRemove_nodup id hinodup,
        ?_, ?_, ?_, ?_, ?_⟩
      · exact fun o ho => hss o (mem_of_mem_bsRemove ho)
      · exact fun o ho => hsp o (mem_of_mem_bsRemove ho)
      · exact List.Pairwise.sublist (bsRemove_sublist id _) hssort
      · exact fun o ho => hsprio o (mem_of_mem_bsRemove ho)
      · refine List.Nodup.sublist ?_ hsnodup
        exact (List.append_sublist_append_left _).mpr
          ((bsRemove_sublist id _).map Order.id)
      · intro f hf
        have hf' := mem_of_mem_indexRemove hf
        have hfne := id_ne_of_mem_indexRemove hinodup hf
        have := hits f hf'
        cases hfside : f.side with
        | Sell =>
          rw [hfside] at this
          simp only
          rw [bsRemove_ids]
          exact (mem_eraseP_ne hfne).2 this
        | Buy =>
          rw [hfside] at this
          exact this
      · intro o ho
        obtain ⟨f, hf, hfid, hfside⟩ := hbti o ho
        have hone : o.id ≠ id := by
          intro heq'
          exact hdisj (List.mem_map.2 ⟨o, ho, rfl⟩) (heq' ▸ hidsell)
        exact ⟨f, (mem_indexRemove_of_ne (hfid ▸ hone)).2 hf, hfid, hfside⟩
      · intro o ho
        obtain ⟨f, hf, hfid, hfside⟩ := hsti o (mem_of_mem_bsRemove ho)
        have hone : o.id ≠ id := id_ne_of_mem_bsRemove hsell_nodup ho
        exact ⟨f, (mem_indexRemove_of_ne (hfid ▸ hone)).2 hf, hfid, hfside⟩
      · exact fun b hb s hs => hcross b hb s (mem_of_mem_bsRemove hs)

/-- The operation `process_market_order` preserves the invariants. -/
theorem wf_process_market_order (ob : OrderBook α) (id : α) (side : Side)
    (q : Int) (hwf : WF ob) :
    WF (process_market_order ob id side q).2 := by
  have h1 : WF (process_limit_order ob id side (marketPrice side) q).2 :=
    wf_process_limit_order ob id side (marketPrice side) q hwf
  unfold process_market_order
  rcases hres : process_limit_order ob id side (marketPrice side) q with ⟨res, ob2⟩
  rw [hres] at h1
  cases res with
  | error e =>
    cases e <;> exact h1
  | ok vec =>
    dsimp only
    cases hlast : vec.getLast? with
    | none =>
      dsimp only
      exact wf_cancel_order ob2 id h1
    | some last =>
      dsimp only
      split
      · exact h1
      · exact wf_cancel_order ob2 id h1

/-! ## Unfolding equations and small consequences of the invariants -/

/-- The value of `process_limit_order` for a Buy taker on the ok path. -/
theorem limit_eq_buy (ob : OrderBook α) (id : α) (price q : Int)
    (hcont : indexContains ob.order_index id = false) (hq : ¬ q ≤ 0) :
    process_limit_order ob id Side.Buy price q =
      (Except.ok (if (matchLoop Side.Buy price q ob.sell_side).taker_qty = 0
          then (matchLoop Side.Buy price q ob.sell_side).records
          else (matchLoop Side.Buy price q ob.sell_side).records
            ++ [⟨id, (matchLoop Side.Buy price q ob.sell_side).taker_qty,
                 (matchLoop Side.Buy price q ob.sell_side).taker_cost⟩]),
       if (matchLoop Side.Buy price q ob.sell_side).qty_rem = 0 then
         { ob with sell_side := (matchLoop Side.Buy price q ob.sell_side).opp,
                   order_index := removeIds ob.order_index
                     (matchLoop Side.Buy price q ob.sell_side).removed }
       else
         { order_index := ⟨id, Side.Buy, price⟩ :: removeIds ob.order_index
             (matchLoop Side.Buy price q ob.sell_side).removed,
           buy_side := buyAdd ⟨id, Side.Buy, price,
             (matchLoop Side.Buy price q ob.sell_side).qty_rem, ob.priority + 1⟩ ob.buy_side,
           sell_side := (matchLoop Side.Buy price q ob.sell_side).opp,
           priority := ob.priority + 1 }) := by
  unfold process_limit_order
  rw [if_neg (by simp [hcont]), if_neg hq]
  dsimp only
  split <;> split <;> rfl

/-- The value of `process_limit_order` for a Sell taker on the ok path. -/
theorem limit_eq_sell (ob : OrderBook α) (id : α) (price q : Int)
    (hcont : indexContains ob.order_index id = false) (hq : ¬ q ≤ 0) :
    process_limit_order ob id Side.Sell price q =
      (Except.ok (if (matchLoop Side.Sell price q ob.buy_side).taker_qty = 0
          then (matchLoop Side.Sell price q ob.buy_side).records
          else (matchLoop Side.Sell price q ob.buy_side).records
            ++ [⟨id, (matchLoop Side.Sell price q ob.buy_side).taker_qty,
                 (matchLoop Side.Sell price q ob.buy_side).taker_cost⟩]),
       if (matchLoop Side.Sell price q ob.buy_side).qty_rem = 0 then
         { ob with buy_side := (matchLoop Side.Sell price q ob.buy_side).opp,
                   order_index := removeIds ob.order_index
                     (matchLoop Side.Sell price q ob.buy_side).removed }
       else
         { order_index := ⟨id, Side.Sell, price⟩ :: removeIds ob.order_index
             (matchLoop Side.Sell price q ob.buy_side).removed,
           buy_side := (matchLoop Side.Sell price q ob.buy_side).opp,
           sell_side := sellAdd ⟨id, Side.Sell, price,
             (matchLoop Side.Sell price q ob.buy_side).qty_rem, ob.priority + 1⟩ ob.sell_side,
           priority := ob.priority + 1 }) := by
  unfold process_limit_order
  rw [if_neg (by simp [hcont]), if_neg hq]
  dsimp only
  split <;> split <;> rfl

/-- The two error returns of `process_limit_order`, each leaving the book
untouched. -/
theorem limit_error_eq (ob : OrderBook α) (id : α) (side : Side) (price q : Int) :
    (indexContains ob.order_index id = true →
      process_limit_order ob id side price q
        = (Except.error errors.ProcessLimitOrder.OrderAlreadyExists, ob))
    ∧ (indexContains ob.order_index id = false → q ≤ 0 →
      process_limit_order ob id side price q
        = (Except.error errors.ProcessLimitOrder.NonPositiveQuantity, ob)) := by
  constructor
  · intro h
    unfold process_limit_order
    rw [if_pos h]
  · intro h hq
    unfold process_limit_order
    rw [if_neg (by simp [h]), if_pos hq]

/-- An error return of `process_limit_order` leaves the book untouched. -/
theorem limit_snd_of_error (ob : OrderBook α) (id : α) (side : Side) (price q : Int)
    (e : errors.ProcessLimitOrder)
    (h : (process_limit_order ob id side price q).1 = Except.error e) :
    (process_limit_order ob id side price q).2 = ob := by
  by_cases hcont : indexContains ob.order_index id = true
  · rw [(limit_error_eq ob id side price q).1 hcont]
  · by_cases hq : q ≤ 0
    · rw [(limit_error_eq ob id side price q).2 (by simpa using hcont) hq]
    · exfalso
      cases side with
      | Buy =>
        rw [limit_eq_buy ob id price q (by simpa using hcont) hq] at h
        simp at h
      | Sell =>
        rw [limit_eq_sell ob id price q (by simpa using hcont) hq] at h
        simp at h

/-- The fill sequence returned by `process_market_order` is the one produced
by the underlying `process_limit_order` at the extreme price. -/
theorem market_fst (ob : OrderBook α) (id : α) (side : Side) (q : Int) :
    (process_market_order ob id side q).1
      = (match (process_limit_order ob id side (marketPrice side) q).1 with
        | Except.ok v => Except.ok v
        | Except.error errors.ProcessLimitOrder.OrderAlreadyExists =>
            Except.error errors.ProcessMarketOrder.OrderAlreadyExists
        | Except.error errors.ProcessLimitOrder.NonPositiveQuantity =>
            Except.error errors.ProcessMarketOrder.NonPositiveQuantity) := by
  unfold process_market_order
  rcases hres : process_limit_order ob id side (marketPrice side) q with ⟨res, ob2⟩
  cases res with
  | error e => cases e <;> rfl
  | ok vec =>
    dsimp only
    cases vec.getLast? with
    | none => rfl
    | some last =>
      dsimp only
      split <;> rfl

/-- If the id is not in the index, the sides do not hold it either. -/
theorem not_in_sides (ob : OrderBook α) (id : α) (hwf : WF ob)
    (hid : id ∉ ob.order_index.map IndexEntry.id) :
    id ∉ sideIds ob.buy_side ∧ id ∉ sideIds ob.sell_side := by
  obtain ⟨-, -, -, -, -, -, -, -, -, -, -, hbti, hsti, -⟩ := hwf
  constructor
  · intro hm
    obtain ⟨o, ho, hoid⟩ := List.mem_map.1 hm
    obtain ⟨e, he, heid, -⟩ := hbti o ho
    exact hid (List.mem_map.2 ⟨e, he, by rw [heid, hoid]⟩)
  · intro hm
    obtain ⟨o, ho, hoid⟩ := List.mem_map.1 hm
    obtain ⟨e, he, heid, -⟩ := hsti o ho
    exact hid (List.mem_map.2 ⟨e, he, by rw [heid, hoid]⟩)

/-- A found cancel returns `Ok`. -/
theorem cancel_fst_ok (ob : OrderBook α) (id : α)
    (h : id ∈ ob.order_index.map IndexEntry.id) :
    (cancel_order ob id).1 = Except.ok () := by
  unfold cancel_order
  cases hlook : indexLookup ob.order_index id with
  | none => exact absurd h ((indexLookup_eq_none _ _).1 hlook)
  | some e =>
    dsimp only
    cases heside : e.side <;> rfl

/-- A cancel of an absent id returns `OrderNotFound` and leaves the book
untouched. -/
theorem cancel_fst_err (ob : OrderBook α) (id : α)
    (h : id ∉ ob.order_index.map IndexEntry.id) :
    cancel_order ob id = (Except.error errors.CancelOrder.OrderNotFound, ob) := by
  unfold cancel_order
  rw [(indexLookup_eq_none _ _).2 h]

/-- After `cancel_order`, the id rests nowhere (whether or not it was found). -/
theorem cancel_not_resting (ob : OrderBook α) (id : α) (hwf : WF ob) :
    id ∉ (cancel_order ob id).2.order_index.map IndexEntry.id
    ∧ id ∉ sideIds (cancel_order ob id).2.buy_side
    ∧ id ∉ sideIds (cancel_order ob id).2.sell_side := by
  obtain ⟨hbs, hss, hbp, hsp, hbsort, hssort, hbprio, hsprio, hinodup, hsnodup,
    hits, hbti, hsti, hcross⟩ := hwf
  have hbuy_nodup : (sideIds ob.buy_side).Nodup := List.Nodup.of_append_left hsnodup
  have hsell_nodup : (sideIds ob.sell_side).Nodup := List.Nodup.of_append_right hsnodup
  have hdisj : List.Disjoint (sideIds ob.buy_side) (sideIds ob.sell_side) :=
    List.disjoint_of_nodup_append hsnodup
  unfold cancel_order
  cases hlook : indexLookup ob.order_index id with
  | none =>
    have hnot := (indexLookup_eq_none _ _).1 hlook
    dsimp only
    refine ⟨hnot, ?_, ?_⟩
    · intro hm
      obtain ⟨o, ho, hoid⟩ := List.mem_map.1 hm
      obtain ⟨e, he, heid, -⟩ := hbti o ho
      exact hnot (List.mem_map.2 ⟨e, he, by rw [heid, hoid]⟩)
    · intro hm
      obtain ⟨o, ho, hoid⟩ := List.mem_map.1 hm
      obtain ⟨e, he, heid, -⟩ := hsti o ho
      exact hnot (List.mem_map.2 ⟨e, he, by rw [heid, hoid]⟩)
  | some e =>
    obtain ⟨he, heid⟩ := indexLookup_some hlook
    have hremidx : id ∉ (indexRemove ob.order_index id).map IndexEntry.id := by
      rw [indexRemove_ids]
      exact not_mem_eraseP_self hinodup id
    dsimp only
    cases heside : e.side with
    | Buy =>
      have hidbuy : id ∈ sideIds ob.buy_side := by
        have := hits e he
        rw [heside] at this
        exact heid ▸ this
      dsimp only
      refine ⟨hremidx, ?_, ?_⟩
      · rw [bsRemove_ids]
        exact not_mem_eraseP_self hbuy_nodup id
      · exact fun hm => hdisj hidbuy hm
    | Sell =>
      have hidsell : id ∈ sideIds ob.sell_side := by
        have := hits e he
        rw [heside] at this
        exact heid ▸ this
      dsimp only
      refine ⟨hremidx, ?_, ?_⟩
      · exact fun hm => hdisj hm hidsell
      · rw [bsRemove_ids]
        exact not_mem_eraseP_self hsell_nodup id

theorem noCrossTop_of_wf (ob : OrderBook α) (hwf : WF ob) : noCrossTop ob := by
  obtain ⟨-, -, -, -, -, -, -, -, -, -, -, -, -, hcross⟩ := hwf
  intro b s hb hs
  exact hcross b (List.mem_of_mem_head? hb) s (List.mem_of_mem_head? hs)

theorem indexSideAgree_of_wf (ob : OrderBook α) (hwf : WF ob) : indexSideAgree ob := by
  obtain ⟨-, -, -, -, -, -, -, -, -, hsnodup, hits, hbti, hsti, -⟩ := hwf
  have hdisj : List.Disjoint (sideIds ob.buy_side) (sideIds ob.sell_side) :=
    List.disjoint_of_nodup_append hsnodup
  intro x
  refine ⟨⟨?_, ?_⟩, ?_⟩
  · intro hm
    obtain ⟨e, he, heid⟩ := List.mem_map.1 hm
    have := hits e he
    cases heside : e.side with
    | Buy => rw [heside] at this; exact Or.inl (heid ▸ this)
    | Sell => rw [heside] at this; exact Or.inr (heid ▸ this)
  · intro hm
    rcases hm with hm | hm
    · obtain ⟨o, ho, hoid⟩ := List.mem_map.1 hm
      obtain ⟨e, he, heid, -⟩ := hbti o ho
      exact List.mem_map.2 ⟨e, he, by rw [heid, hoid]⟩
    · obtain ⟨o, ho, hoid⟩ := List.mem_map.1 hm
      obtain ⟨e, he, heid, -⟩ := hsti o ho
      exact List.mem_map.2 ⟨e, he, by rw [heid, hoid]⟩
  · rintro ⟨h1, h2⟩
    exact hdisj h1 h2

/-! ## The claims -/

/-- C2: starting from the empty book, Sell(1, p=4, q=4); Sell(2, p=3, q=2);
Buy(3, p=8, q=3) makes the third call return exactly
[{2, 2, -6}, {1, 1, -4}, {3, 3, +10}]: makers are consumed best-price-first
at their resting prices and the price improvement accrues to the taker. -/
theorem claim_C2 :
    (process_limit_order (process_limit_order (process_limit_order (OrderBook.new Nat)
        1 Side.Sell 4 4).2 2 Side.Sell 3 2).2 3 Side.Buy 8 3).1
      = Except.ok [⟨2, 2, -6⟩, ⟨1, 1, -4⟩, ⟨3, 3, 10⟩] := by rfl

/-- C5 counterexample: on a book where id 1 rests, a limit order with id 1
and quantity 0 has both preconditions violated, and the call returns
`OrderAlreadyExists`, not `NonPositiveQuantity` — so "NonPositiveQuantity
whenever the requested quantity is ≤ 0" fails as stated. -/
theorem claim_C5_counterexample :
    (process_limit_order wbook 1 Side.Buy 10 0).1
        = Except.error errors.ProcessLimitOrder.OrderAlreadyExists
    ∧ (process_limit_order wbook 1 Side.Buy 10 0).1
        ≠ Except.error errors.ProcessLimitOrder.NonPositiveQuantity := by
  refine ⟨rfl, ?_⟩
  intro h
  rw [show (process_limit_order wbook 1 Side.Buy 10 0).1
      = Except.error errors.ProcessLimitOrder.OrderAlreadyExists from rfl] at h
  exact absurd (Except.error.inj h) (by decide)

/-- C5 (amended): `process_limit_order` returns `NonPositiveQuantity` when
the quantity is ≤ 0 and the id is not resting, returns `OrderAlreadyExists`
whenever the id is resting, and in every error case performs no mutation:
the book after the call equals the book before it. -/
theorem claim_C5_amended (ob : OrderBook α) (id : α) (side : Side)
    (price q : Int) :
    (indexContains ob.order_index id = false → q ≤ 0 →
      process_limit_order ob id side price q
        = (Except.error errors.ProcessLimitOrder.NonPositiveQuantity, ob))
    ∧ (indexContains ob.order_index id = true →
      process_limit_order ob id side price q
        = (Except.error errors.ProcessLimitOrder.OrderAlreadyExists, ob))
    ∧ (∀ e ob2, process_limit_order ob id side price q = (Except.error e, ob2) →
        ob2 = ob) := by
  refine ⟨fun h hq => (limit_error_eq ob id side price q).2 h hq,
          fun h => (limit_error_eq ob id side price q).1 h, ?_⟩
  intro e ob2 h
  have h1 := congrArg Prod.fst h
  have h2 := congrArg Prod.snd h
  dsimp at h1 h2
  rw [← h2]
  exact limit_snd_of_error ob id side price q e h1

/-- Witness for C5: both error equations at concrete inputs. -/
theorem claim_C5_witness :
    process_limit_order (OrderBook.new Nat) 4 Side.Buy 5 0
        = (Except.error errors.ProcessLimitOrder.NonPositiveQuantity, OrderBook.new Nat)
    ∧ process_limit_order wbook 1 Side.Buy 7 3
        = (Except.error errors.ProcessLimitOrder.OrderAlreadyExists, wbook) :=
  ⟨(claim_C5_amended (OrderBook.new Nat) 4 Side.Buy 5 0).1 (by decide) (by decide),
   (claim_C5_amended wbook 1 Side.Buy 7 3).2.1 (by decide)⟩

/-- C10: when both preconditions are violated at once (the id rests and the
quantity is ≤ 0), both `process_limit_order` and `process_market_order`
return `OrderAlreadyExists`: the duplicate-id check runs first. -/
theorem claim_C10 (ob : OrderBook α) (id : α) (side : Side) (price q : Int)
    (hdup : indexContains ob.order_index id = true) (hq : q ≤ 0) :
    (process_limit_order ob id side price q).1
        = Except.error errors.ProcessLimitOrder.OrderAlreadyExists
    ∧ (process_market_order ob id side q).1
        = Except.error errors.ProcessMarketOrder.OrderAlreadyExists := by
  constructor
  · rw [(limit_error_eq ob id side price q).1 hdup]
  · rw [market_fst, (limit_error_eq ob id side (marketPrice side) q).1 hdup]

/-- Witness for C10 at a concrete doubly-violating input. -/
theorem claim_C10_witness :
    indexContains wbook.order_index 1 = true ∧ (0 : Int) ≤ 0
    ∧ (process_limit_order wbook 1 Side.Buy 9 0).1
        = Except.error errors.ProcessLimitOrder.OrderAlreadyExists
    ∧ (process_market_order wbook 1 Side.Buy 0).1
        = Except.error errors.ProcessMarketOrder.OrderAlreadyExists :=
  ⟨by decide, le_refl 0,
   (claim_C10 wbook 1 Side.Buy 9 0 (by decide) (le_refl 0)).1,
   (claim_C10 wbook 1 Side.Buy 9 0 (by decide) (le_refl 0)).2⟩

/-- C9: cancelling a resting id returns `Ok` and removes the order from the
index and from its side (no fills are produced: the return type of
`cancel_order` carries none); cancelling an absent id returns `OrderNotFound`
and leaves the book unchanged; hence two consecutive cancels of the same
resting id yield `Ok` then `OrderNotFound`. -/
theorem claim_C9 (ob : OrderBook α) (id : α) (hwf : WF ob) :
    (id ∈ ob.order_index.map IndexEntry.id →
      (cancel_order ob id).1 = Except.ok ()
      ∧ id ∉ (cancel_order ob id).2.order_index.map IndexEntry.id
      ∧ id ∉ sideIds (cancel_order ob id).2.buy_side
      ∧ id ∉ sideIds (cancel_order ob id).2.sell_side
      ∧ (cancel_order (cancel_order ob id).2 id).1
          = Except.error errors.CancelOrder.OrderNotFound)
    ∧ (id ∉ ob.order_index.map IndexEntry.id →
      cancel_order ob id = (Except.error errors.CancelOrder.OrderNotFound, ob)) := by
  constructor
  · intro hmem
    obtain ⟨h1, h2, h3⟩ := cancel_not_resting ob id hwf
    refine ⟨cancel_fst_ok ob id hmem, h1, h2, h3, ?_⟩
    rw [cancel_fst_err _ _ h1]
  · exact cancel_fst_err ob id

/-- Witness for C9: cancel then cancel again on a concrete book. -/
theorem claim_C9_witness :
    (cancel_order wbook 1).1 = Except.ok ()
    ∧ (cancel_order (cancel_order wbook 1).2 1).1
        = Except.error errors.CancelOrder.OrderNotFound :=
  ⟨((claim_C9 wbook 1 (by decide)).1 (by decide)).1,
   ((claim_C9 wbook 1 (by decide)).1 (by decide)).2.2.2.2⟩

/-- C7: after each public mutating operation, if both sides are non-empty
the best resting buy price is strictly below the best resting sell price
(the book is never crossed at rest). -/
theorem claim_C7 (ob : OrderBook α) (id : α) (side : Side) (price q : Int)
    (hwf : WF ob) :
    noCrossTop (process_limit_order ob id side price q).2
    ∧ noCrossTop (process_market_order ob id side q).2
    ∧ noCrossTop (cancel_order ob id).2 :=
  ⟨noCrossTop_of_wf _ (wf_process_limit_order ob id side price q hwf),
   noCrossTop_of_wf _ (wf_process_market_order ob id side q hwf),
   noCrossTop_of_wf _ (wf_cancel_order ob id hwf)⟩

/-- Witness for C7 on a concrete book and crossing order. -/
theorem claim_C7_witness :
    WF wbook ∧ noCrossTop (process_limit_order wbook 7 Side.Buy 4 2).2 :=
  ⟨by decide, (claim_C7 wbook 7 Side.Buy 4 2 (by decide)).1⟩

/-- C8: after each public mutating operation, an id is present in the order
index exactly when it is present in exactly one of the two sides. -/
theorem claim_C8 (ob : OrderBook α) (id : α) (side : Side) (price q : Int)
    (hwf : WF ob) :
    indexSideAgree (process_limit_order ob id side price q).2
    ∧ indexSideAgree (process_market_order ob id side q).2
    ∧ indexSideAgree (cancel_order ob id).2 :=
  ⟨indexSideAgree_of_wf _ (wf_process_limit_order ob id side price q hwf),
   indexSideAgree_of_wf _ (wf_process_market_order ob id side q hwf),
   indexSideAgree_of_wf _ (wf_cancel_order ob id hwf)⟩

/-- Witness for C8 on a concrete book and partially matching order. -/
theorem claim_C8_witness :
    WF wbook ∧ indexSideAgree (process_limit_order wbook 7 Side.Buy 5 9).2 :=
  ⟨by decide, (claim_C8 wbook 7 Side.Buy 5 9 (by decide)).1⟩

/-- On the ok path the fill sequence is one record per consumed maker
followed, when anything transacted, by the aggregate taker record; its costs
cancel and its maker quantities sum to the taker quantity. -/
theorem limit_fills_sums (ob : OrderBook α) (id : α) (side : Side)
    (price q : Int) (hwf : WF ob) (fills : List (OrderMatch α)) (ob2 : OrderBook α)
    (h : process_limit_order ob id side price q = (Except.ok fills, ob2))
    (hne : fills ≠ []) :
    (fills.map OrderMatch.cost).sum = 0
    ∧ ∃ last, fills.getLast? = some last
        ∧ (fills.dropLast.map OrderMatch.quantity).sum = last.quantity := by
  obtain ⟨-, -, hbp, hsp, -, -, -, -, -, -, -, -, -, -⟩ := hwf
  by_cases hcont : indexContains ob.order_index id = true
  · rw [(limit_error_eq ob id side price q).1 hcont] at h
    simp at h
  · by_cases hq : q ≤ 0
    · rw [(limit_error_eq ob id side price q).2 (by simpa using hcont) hq] at h
      simp at h
    · have hcont' : indexContains ob.order_index id = false := by simpa using hcont
      cases side with
      | Buy =>
        rw [limit_eq_buy ob id price q hcont' hq] at h
        have hfe : (if (matchLoop Side.Buy price q ob.sell_side).taker_qty = 0
            then (matchLoop Side.Buy price q ob.sell_side).records
            else (matchLoop Side.Buy price q ob.sell_side).records
              ++ [⟨id, (matchLoop Side.Buy price q ob.sell_side).taker_qty,
                   (matchLoop Side.Buy price q ob.sell_side).taker_cost⟩]) = fills := by
          have h1 := congrArg Prod.fst h
          simpa using h1
        by_cases htq : (matchLoop Side.Buy price q ob.sell_side).taker_qty = 0
        · rw [if_pos htq, (matchLoop_records_nil Side.Buy price q ob.sell_side hsp).2 htq]
            at hfe
          exact absurd hfe.symm hne
        · rw [if_neg htq] at hfe
          subst hfe
          refine ⟨?_, ⟨id, (matchLoop Side.Buy price q ob.sell_side).taker_qty,
            (matchLoop Side.Buy price q ob.sell_side).taker_cost⟩,
            List.getLast?_concat _, ?_⟩
          · rw [List.map_append, List.sum_append]
            have := matchLoop_cost_sum Side.Buy price q ob.sell_side
            simpa using this
          · rw [List.dropLast_concat]
            exact matchLoop_qty_sum Side.Buy price q ob.sell_side
      | Sell =>
        rw [limit_eq_sell ob id price q hcont' hq] at h
        have hfe : (if (matchLoop Side.Sell price q ob.buy_side).taker_qty = 0
            then (matchLoop Side.Sell price q ob.buy_side).records
            else (matchLoop Side.Sell price q ob.buy_side).records
              ++ [⟨id, (matchLoop Side.Sell price q ob.buy_side).taker_qty,
                   (matchLoop Side.Sell price q ob.buy_side).taker_cost⟩]) = fills := by
          have h1 := congrArg Prod.fst h
          simpa using h1
        by_cases htq : (matchLoop Side.Sell price q ob.buy_side).taker_qty = 0
        · rw [if_pos htq, (matchLoop_records_nil Side.Sell price q ob.buy_side hbp).2 htq]
            at hfe
          exact absurd hfe.symm hne
        · rw [if_neg htq] at hfe
          subst hfe
          refine ⟨?_, ⟨id, (matchLoop Side.Sell price q ob.buy_side).taker_qty,
            (matchLoop Side.Sell price q ob.buy_side).taker_cost⟩,
            List.getLast?_concat _, ?_⟩
          · rw [List.map_append, List.sum_append]
            have := matchLoop_cost_sum Side.Sell price q ob.buy_side
            simpa using this
          · rw [List.dropLast_concat]
            exact matchLoop_qty_sum Side.Sell price q ob.buy_side

/-- C1: for every call of `process_limit_order` or `process_market_order`
returning a non-empty fill sequence on a well-formed book, the costs over
all records sum to exactly zero, and the maker quantities (all records but
the last) sum to the quantity of the terminal taker record. -/
theorem claim_C1 (ob : OrderBook α) (id : α) (side : Side) (price q : Int)
    (hwf : WF ob) :
    (∀ fills ob2, process_limit_order ob id side price q = (Except.ok fills, ob2) →
      fills ≠ [] →
      (fills.map OrderMatch.cost).sum = 0
      ∧ ∃ last, fills.getLast? = some last
          ∧ (fills.dropLast.map OrderMatch.quantity).sum = last.quantity)
    ∧ (∀ fills ob2, process_market_order ob id side q = (Except.ok fills, ob2) →
      fills ≠ [] →
      (fills.map OrderMatch.cost).sum = 0
      ∧ ∃ last, fills.getLast? = some last
          ∧ (fills.dropLast.map OrderMatch.quantity).sum = last.quantity) := by
  constructor
  · exact fun fills ob2 h hne => limit_fills_sums ob id side price q hwf fills ob2 h hne
  · intro fills ob2 h hne
    have hfst := congrArg Prod.fst h
    rw [market_fst] at hfst
    rcases hL : process_limit_order ob id side (marketPrice side) q with ⟨res, obL⟩
    rw [hL] at hfst
    cases res with
    | error e => cases e <;> simp at hfst
    | ok v =>
      simp only at hfst
      have hv : v = fills := by simpa using hfst
      subst hv
      exact limit_fills_sums ob id side (marketPrice side) q hwf v obL hL hne

/-- Witness for C1: a concrete crossing limit order on `wbook`. -/
theorem claim_C1_witness :
    WF wbook
    ∧ ((([⟨2, 2, -10⟩, ⟨9, 2, 10⟩] : List (OrderMatch Nat)).map OrderMatch.cost).sum = 0
      ∧ ∃ last, ([⟨2, 2, -10⟩, ⟨9, 2, 10⟩] : List (OrderMatch Nat)).getLast? = some last
          ∧ (([⟨2, 2, -10⟩, ⟨9, 2, 10⟩] : List (OrderMatch Nat)).dropLast.map
              OrderMatch.quantity).sum = last.quantity) :=
  ⟨by decide,
   (claim_C1 wbook 9 Side.Buy 9 2 (by decide)).1 [⟨2, 2, -10⟩, ⟨9, 2, 10⟩]
     (process_limit_order wbook 9 Side.Buy 9 2).2 (by rfl) (by decide)⟩

/-- C6 counterexample: after a single resting limit order the freshly
admitted order's priority is 1 — the counter's value after the increment,
not before it — and it equals the counter instead of being strictly below
it.  `priority` is incremented before use (`priority = ++next_priority`),
so I3 with strict inequality fails. -/
theorem claim_C6_counterexample :
    (process_limit_order (OrderBook.new Nat) 1 Side.Buy 5 5).2.buy_side.map
        Order.priority = [1]
    ∧ (process_limit_order (OrderBook.new Nat) 1 Side.Buy 5 5).2.priority = 1
    ∧ ¬ (∀ o ∈ (process_limit_order (OrderBook.new Nat) 1 Side.Buy 5 5).2.buy_side,
          o.priority < (process_limit_order (OrderBook.new Nat) 1 Side.Buy 5 5).2.priority) := by
  decide

/-- C6 (amended): the counter starts at 0; after every public operation it
is greater than or equal to the priority of every resting order (equality
holds for the most recently admitted one); a residual taker is admitted with
priority equal to the counter's value after it is incremented
(`priority = ++next_priority`), so the new book counter and the new order's
priority are both the old counter plus one. -/
theorem claim_C6_amended (ob : OrderBook α) (id : α) (side : Side)
    (price q : Int) (hwf : WF ob) :
    (OrderBook.new α).priority = 0
    ∧ (∀ o ∈ (process_limit_order ob id side price q).2.buy_side
          ++ (process_limit_order ob id side price q).2.sell_side,
        o.priority ≤ (process_limit_order ob id side price q).2.priority)
    ∧ (∀ o ∈ (process_market_order ob id side q).2.buy_side
          ++ (process_market_order ob id side q).2.sell_side,
        o.priority ≤ (process_market_order ob id side q).2.priority)
    ∧ (∀ o ∈ (cancel_order ob id).2.buy_side ++ (cancel_order ob id).2.sell_side,
        o.priority ≤ (cancel_order ob id).2.priority)
    ∧ (indexContains ob.order_index id = false → ¬ q ≤ 0 →
        ∀ fills ob2, process_limit_order ob id side price q = (Except.ok fills, ob2) →
          id ∈ ob2.order_index.map IndexEntry.id →
          ob2.priority = ob.priority + 1
          ∧ ∃ o, (o ∈ ob2.buy_side ∨ o ∈ ob2.sell_side) ∧ o.id = id
              ∧ o.priority = ob.priority + 1) := by
  have hwf' := hwf
  obtain ⟨-, -, -, -, -, -, -, -, hinodup, -, -, -, -, -⟩ := hwf'
  have hprio : ∀ ob' : OrderBook α, WF ob' →
      ∀ o ∈ ob'.buy_side ++ ob'.sell_side, o.priority ≤ ob'.priority := by
    intro ob' hwfo o ho
    obtain ⟨-, -, -, -, -, -, hb, hs, -, -, -, -, -, -⟩ := hwfo
    rcases List.mem_append.1 ho with h | h
    · exact hb o h
    · exact hs o h
  refine ⟨rfl, hprio _ (wf_process_limit_order ob id side price q hwf),
    hprio _ (wf_process_market_order ob id side q hwf),
    hprio _ (wf_cancel_order ob id hwf), ?_⟩
  intro hid hq fills ob2 h hmem
  have hid' : id ∉ ob.order_index.map IndexEntry.id := by
    intro hm
    exact absurd ((indexContains_iff _ _).2 hm) (by simp [hid])
  cases side with
  | Buy =>
    rw [limit_eq_buy ob id price q hid hq] at h
    have h2 := congrArg Prod.snd h
    dsimp only at h2
    by_cases hrem : (matchLoop Side.Buy price q ob.sell_side).qty_rem = 0
    · rw [if_pos hrem] at h2
      subst h2
      exfalso
      obtain ⟨e, he, heid⟩ := List.mem_map.1 hmem
      obtain ⟨he', -⟩ := (mem_removeIds hinodup).1 he
      exact hid' (List.mem_map.2 ⟨e, he', heid⟩)
    · rw [if_neg hrem] at h2
      subst h2
      exact ⟨rfl, ⟨id, Side.Buy, price,
        (matchLoop Side.Buy price q ob.sell_side).qty_rem, ob.priority + 1⟩,
        Or.inl ((mem_bsInsert _ _ _ _).2 (Or.inl rfl)), rfl, rfl⟩
  | Sell =>
    rw [limit_eq_sell ob id price q hid hq] at h
    have h2 := congrArg Prod.snd h
    dsimp only at h2
    by_cases hrem : (matchLoop Side.Sell price q ob.buy_side).qty_rem = 0
    · rw [if_pos hrem] at h2
      subst h2
      exfalso
      obtain ⟨e, he, heid⟩ := List.mem_map.1 hmem
      obtain ⟨he', -⟩ := (mem_removeIds hinodup).1 he
      exact hid' (List.mem_map.2 ⟨e, he', heid⟩)
    · rw [if_neg hrem] at h2
      subst h2
      exact ⟨rfl, ⟨id, Side.Sell, price,
        (matchLoop Side.Sell price q ob.buy_side).qty_rem, ob.priority + 1⟩,
        Or.inr ((mem_bsInsert _ _ _ _).2 (Or.inl rfl)), rfl, rfl⟩

/-- Witness for C6: counter bound and the pre-increment admission on a
concrete book (`wbook` has counter 2; the order rested by the call gets
priority 3 = 2 + 1 and the counter becomes 3). -/
theorem claim_C6_witness :
    WF wbook
    ∧ (OrderBook.new Nat).priority = 0
    ∧ (∀ o ∈ (process_limit_order wbook 7 Side.Buy 4 2).2.buy_side
          ++ (process_limit_order wbook 7 Side.Buy 4 2).2.sell_side,
        o.priority ≤ (process_limit_order wbook 7 Side.Buy 4 2).2.priority)
    ∧ ((process_limit_order wbook 7 Side.Buy 4 2).2.priority = wbook.priority + 1
      ∧ ∃ o, (o ∈ (process_limit_order wbook 7 Side.Buy 4 2).2.buy_side
            ∨ o ∈ (process_limit_order wbook 7 Side.Buy 4 2).2.sell_side)
          ∧ o.id = 7 ∧ o.priority = wbook.priority + 1) :=
  ⟨by decide, (claim_C6_amended wbook 7 Side.Buy 4 2 (by decide)).1,
   (claim_C6_amended wbook 7 Side.Buy 4 2 (by decide)).2.1,
   (claim_C6_amended wbook 7 Side.Buy 4 2 (by decide)).2.2.2.2 (by decide) (by decide)
     [] (process_limit_order wbook 7 Side.Buy 4 2).2 (by rfl) (by decide)⟩

/-- C4: on a well-formed book whose prices lie in the `Decimal` range, for a
positive quantity and a non-resting taker id, `calculate_market_cost`
returns exactly the `(quantity, cost)` pair of the terminal taker record of
the fill sequence produced by `process_market_order` with the same side and
quantity ((0, 0) when the fill sequence is empty). -/
theorem claim_C4 (ob : OrderBook α) (id : α) (side : Side) (q : Int)
    (hwf : WF ob)
    (hrange : ∀ o ∈ ob.buy_side ++ ob.sell_side,
      decimalMIN ≤ o.price ∧ o.price ≤ decimalMAX)
    (hq : 0 < q) (hid : indexContains ob.order_index id = false) :
    ∃ fills ob2, process_market_order ob id side q = (Except.ok fills, ob2)
      ∧ calculate_market_cost ob side q = Except.ok (fillsTerminal fills) := by
  have hq' : ¬ q ≤ 0 := by omega
  have hwf2 := hwf
  obtain ⟨-, -, hbp, hsp, -, -, -, -, -, -, -, -, -, -⟩ := hwf2
  cases side with
  | Buy =>
    have hrs : ∀ o ∈ ob.sell_side, decimalMIN ≤ o.price ∧ o.price ≤ decimalMAX :=
      fun o ho => hrange o (List.mem_append.2 (Or.inr ho))
    have hcmc := cmc_eq_matchLoop Side.Buy q ob.sell_side (le_of_lt hq) hsp hrs
    have hcgoal : calculate_market_cost ob Side.Buy q
        = Except.ok ((matchLoop Side.Buy (marketPrice Side.Buy) q ob.sell_side).taker_qty,
            (matchLoop Side.Buy (marketPrice Side.Buy) q ob.sell_side).taker_cost) := by
      unfold calculate_market_cost
      rw [if_neg hq']
      dsimp only
      rw [hcmc]
    unfold process_market_order
    rw [limit_eq_buy ob id (marketPrice Side.Buy) q hid hq']
    dsimp only
    by_cases htq : (matchLoop Side.Buy (marketPrice Side.Buy) q ob.sell_side).taker_qty = 0
    · have hrecs :=
        (matchLoop_records_nil Side.Buy (marketPrice Side.Buy) q ob.sell_side hsp).2 htq
      rw [if_pos htq, hrecs, List.getLast?_nil]
      dsimp only
      refine ⟨[], _, rfl, ?_⟩
      have hc0 : (matchLoop Side.Buy (marketPrice Side.Buy) q ob.sell_side).taker_cost = 0 := by
        have := matchLoop_cost_sum Side.Buy (marketPrice Side.Buy) q ob.sell_side
        rw [hrecs] at this
        simpa using this
      rw [hcgoal, htq, hc0]
      rfl
    · rw [if_neg htq, List.getLast?_concat]
      dsimp only
      have hterm : calculate_market_cost ob Side.Buy q
          = Except.ok (fillsTerminal
              ((matchLoop Side.Buy (marketPrice Side.Buy) q ob.sell_side).records
                ++ [⟨id, (matchLoop Side.Buy (marketPrice Side.Buy) q ob.sell_side).taker_qty,
                     (matchLoop Side.Buy (marketPrice Side.Buy) q ob.sell_side).taker_cost⟩])) := by
        rw [hcgoal]
        unfold fillsTerminal
        rw [List.getLast?_concat]
      by_cases hfull : (matchLoop Side.Buy (marketPrice Side.Buy) q ob.sell_side).taker_qty = q
      · rw [if_pos hfull]
        exact ⟨_, _, rfl, hterm⟩
      · rw [if_neg hfull]
        exact ⟨_, _, rfl, hterm⟩
  | Sell =>
    have hrb : ∀ o ∈ ob.buy_side, decimalMIN ≤ o.price ∧ o.price ≤ decimalMAX :=
      fun o ho => hrange o (List.mem_append.2 (Or.inl ho))
    have hcmc := cmc_eq_matchLoop Side.Sell q ob.buy_side (le_of_lt hq) hbp hrb
    have hcgoal : calculate_market_cost ob Side.Sell q
        = Except.ok ((matchLoop Side.Sell (marketPrice Side.Sell) q ob.buy_side).taker_qty,
            (matchLoop Side.Sell (marketPrice Side.Sell) q ob.buy_side).taker_cost) := by
      unfold calculate_market_cost
      rw [if_neg hq']
      dsimp only
      rw [hcmc]
    unfold process_market_order
    rw [limit_eq_sell ob id (marketPrice Side.Sell) q hid hq']
    dsimp only
    by_cases htq : (matchLoop Side.Sell (marketPrice Side.Sell) q ob.buy_side).taker_qty = 0
    · have hrecs :=
        (matchLoop_records_nil Side.Sell (marketPrice Side.Sell) q ob.buy_side hbp).2 htq
      rw [if_pos htq, hrecs, List.getLast?_nil]
      dsimp only
      refine ⟨[], _, rfl, ?_⟩
      have hc0 : (matchLoop Side.Sell (marketPrice Side.Sell) q ob.buy_side).taker_cost = 0 := by
        have := matchLoop_cost_sum Side.Sell (marketPrice Side.Sell) q ob.buy_side
        rw [hrecs] at this
        simpa using this
      rw [hcgoal, htq, hc0]
      rfl
    · rw [if_neg htq, List.getLast?_concat]
      dsimp only
      have hterm : calculate_market_cost ob Side.Sell q
          = Except.ok (fillsTerminal
              ((matchLoop Side.Sell (marketPrice Side.Sell) q ob.buy_side).records
                ++ [⟨id, (matchLoop Side.Sell (marketPrice Side.Sell) q ob.buy_side).taker_qty,
                     (matchLoop Side.Sell (marketPrice Side.Sell) q ob.buy_side).taker_cost⟩])) := by
        rw [hcgoal]
        unfold fillsTerminal
        rw [List.getLast?_concat]
      by_cases hfull : (matchLoop Side.Sell (marketPrice Side.Sell) q ob.buy_side).taker_qty = q
      · rw [if_pos hfull]
        exact ⟨_, _, rfl, hterm⟩
      · rw [if_neg hfull]
        exact ⟨_, _, rfl, hterm⟩

/-- Witness for C4: the dry run agrees with the market fill on `wbook`. -/
theorem claim_C4_witness :
    WF wbook ∧ (0 : Int) < 6
    ∧ ∃ fills ob2, process_market_order wbook 9 Side.Buy 6 = (Except.ok fills, ob2)
        ∧ calculate_market_cost wbook Side.Buy 6 = Except.ok (fillsTerminal fills) :=
  ⟨by decide, by decide, claim_C4 wbook 9 Side.Buy 6 (by decide) (by decide)
    (by decide) (by decide)⟩

/-- C3 counterexample: the claim quantifies over every book state and id,
including error returns; but on a book where id 1 already rests,
`process_market_order` with id 1 returns `OrderAlreadyExists` and id 1 is
still resting afterwards. -/
theorem claim_C3_counterexample :
    (process_market_order wbook 1 Side.Buy 3).1
        = Except.error errors.ProcessMarketOrder.OrderAlreadyExists
    ∧ 1 ∈ (process_market_order wbook 1 Side.Buy 3).2.order_index.map IndexEntry.id := by
  exact ⟨rfl, by decide⟩

/-- On a well-formed book, a market order whose id was not resting leaves
that id absent from the order index and from both sides, whatever the
outcome (error, empty sequence, partial or full fill), so a subsequent
cancel of it returns `OrderNotFound`. -/
theorem market_not_resting (ob : OrderBook α) (id : α) (side : Side) (q : Int)
    (hwf : WF ob) (hid : indexContains ob.order_index id = false) :
    id ∉ (process_market_order ob id side q).2.order_index.map IndexEntry.id
    ∧ id ∉ sideIds (process_market_order ob id side q).2.buy_side
    ∧ id ∉ sideIds (process_market_order ob id side q).2.sell_side
    ∧ (cancel_order (process_market_order ob id side q).2 id).1
        = Except.error errors.CancelOrder.OrderNotFound := by
  have hwfc := hwf
  obtain ⟨-, -, hbp, hsp, -, -, -, -, hinodup, -, -, -, -, -⟩ := hwfc
  have hid' : id ∉ ob.order_index.map IndexEntry.id := by
    intro hm
    exact absurd ((indexContains_iff _ _).2 hm) (by simp [hid])
  obtain ⟨hidb, hids⟩ := not_in_sides ob id hwf hid'
  have main : id ∉ (process_market_order ob id side q).2.order_index.map IndexEntry.id
      ∧ id ∉ sideIds (process_market_order ob id side q).2.buy_side
      ∧ id ∉ sideIds (process_market_order ob id side q).2.sell_side := by
    by_cases hq : q ≤ 0
    · unfold process_market_order
      rw [(limit_error_eq ob id side (marketPrice side) q).2 hid hq]
      exact ⟨hid', hidb, hids⟩
    · have hwfL := wf_process_limit_order ob id side (marketPrice side) q hwf
      cases side with
      | Buy =>
        have heq := limit_eq_buy ob id (marketPrice Side.Buy) q hid hq
        rw [heq] at hwfL
        dsimp only at hwfL
        unfold process_market_order
        rw [heq]
        dsimp only
        by_cases htq : (matchLoop Side.Buy (marketPrice Side.Buy) q ob.sell_side).taker_qty = 0
        · have hrecs :=
            (matchLoop_records_nil Side.Buy (marketPrice Side.Buy) q ob.sell_side hsp).2 htq
          rw [if_pos htq, hrecs, List.getLast?_nil]
          dsimp only
          exact cancel_not_resting _ id hwfL
        · rw [if_neg htq, List.getLast?_concat]
          dsimp only
          by_cases hfull :
              (matchLoop Side.Buy (marketPrice Side.Buy) q ob.sell_side).taker_qty = q
          · rw [if_pos hfull]
            have hrem : (matchLoop Side.Buy (marketPrice Side.Buy) q ob.sell_side).qty_rem = 0 := by
              have := matchLoop_qty_split Side.Buy (marketPrice Side.Buy) q ob.sell_side
              omega
            rw [if_pos hrem]
            refine ⟨?_, hidb, ?_⟩
            · intro hm
              obtain ⟨e, he, heid⟩ := List.mem_map.1 hm
              obtain ⟨he', -⟩ := (mem_removeIds hinodup).1 he
              exact hid' (List.mem_map.2 ⟨e, he', heid⟩)
            · intro hm
              apply hids
              rw [show sideIds ob.sell_side = _ from
                matchLoop_ids Side.Buy (marketPrice Side.Buy) q ob.sell_side]
              exact List.mem_append.2 (Or.inr hm)
          · rw [if_neg hfull]
            exact cancel_not_resting _ id hwfL
      | Sell =>
        have heq := limit_eq_sell ob id (marketPrice Side.Sell) q hid hq
        rw [heq] at hwfL
        dsimp only at hwfL
        unfold process_market_order
        rw [heq]
        dsimp only
        by_cases htq : (matchLoop Side.Sell (marketPrice Side.Sell) q ob.buy_side).taker_qty = 0
        · have hrecs :=
            (matchLoop_records_nil Side.Sell (marketPrice Side.Sell) q ob.buy_side hbp).2 htq
          rw [if_pos htq, hrecs, List.getLast?_nil]
          dsimp only
          exact cancel_not_resting _ id hwfL
        · rw [if_neg htq, List.getLast?_concat]
          dsimp only
          by_cases hfull :
              (matchLoop Side.Sell (marketPrice Side.Sell) q ob.buy_side).taker_qty = q
          · rw [if_pos hfull]
            have hrem : (matchLoop Side.Sell (marketPrice Side.Sell) q ob.buy_side).qty_rem = 0 := by
              have := matchLoop_qty_split Side.Sell (marketPrice Side.Sell) q ob.buy_side
              omega
            rw [if_pos hrem]
            refine ⟨?_, ?_, hids⟩
            · intro hm
              obtain ⟨e, he, heid⟩ := List.mem_map.1 hm
              obtain ⟨he', -⟩ := (mem_removeIds hinodup).1 he
              exact hid' (List.mem_map.2 ⟨e, he', heid⟩)
            · intro hm
              apply hidb
              rw [show sideIds ob.buy_side = _ from
                matchLoop_ids Side.Sell (marketPrice Side.Sell) q ob.buy_side]
              exact List.mem_append.2 (Or.inr hm)
          · rw [if_neg hfull]
            exact cancel_not_resting _ id hwfL
  exact ⟨main.1, main.2.1, main.2.2, by rw [cancel_fst_err _ _ main.1]⟩

/-- C3 (amended): on a well-formed book, after `process_market_order(id,
side, quantity)` returns, an id that was not resting before the call is
absent from the order index and from both sides, whatever the outcome
(error, empty sequence, partial or full fill), and a subsequent cancel of
it returns `OrderNotFound`; an id that WAS resting makes the call return
`OrderAlreadyExists` and leaves the book — hence the previously resting
order — unchanged.  In particular, on an empty book, `place_market` with a
positive quantity returns an empty sequence and a subsequent cancel of that
id returns `OrderNotFound`. -/
theorem claim_C3_amended (ob : OrderBook α) (id : α) (side : Side) (q : Int)
    (hwf : WF ob) :
    (indexContains ob.order_index id = false →
      id ∉ (process_market_order ob id side q).2.order_index.map IndexEntry.id
      ∧ id ∉ sideIds (process_market_order ob id side q).2.buy_side
      ∧ id ∉ sideIds (process_market_order ob id side q).2.sell_side
      ∧ (cancel_order (process_market_order ob id side q).2 id).1
          = Except.error errors.CancelOrder.OrderNotFound)
    ∧ (indexContains ob.order_index id = true →
      process_market_order ob id side q
        = (Except.error errors.ProcessMarketOrder.OrderAlreadyExists, ob))
    ∧ (0 < q →
      (process_market_order (OrderBook.new α) id side q).1 = Except.ok []
      ∧ (cancel_order (process_market_order (OrderBook.new α) id side q).2 id).1
          = Except.error errors.CancelOrder.OrderNotFound) := by
  refine ⟨market_not_resting ob id side q hwf, ?_, ?_⟩
  · intro hdup
    unfold process_market_order
    rw [(limit_error_eq ob id side (marketPrice side) q).1 hdup]
  · intro hq
    have hq' : ¬ q ≤ 0 := by omega
    constructor
    · cases side with
      | Buy =>
        unfold process_market_order
        rw [limit_eq_buy (OrderBook.new α) id (marketPrice Side.Buy) q rfl hq']
        rw [show matchLoop Side.Buy (marketPrice Side.Buy) q (OrderBook.new α).sell_side
            = ⟨[], q, 0, 0, [], []⟩ from rfl]
        dsimp only
        rw [if_pos rfl, List.getLast?_nil]
      | Sell =>
        unfold process_market_order
        rw [limit_eq_sell (OrderBook.new α) id (marketPrice Side.Sell) q rfl hq']
        rw [show matchLoop Side.Sell (marketPrice Side.Sell) q (OrderBook.new α).buy_side
            = ⟨[], q, 0, 0, [], []⟩ from rfl]
        dsimp only
        rw [if_pos rfl, List.getLast?_nil]
    · exact (market_not_resting (OrderBook.new α) id side q wf_new rfl).2.2.2

/-- Witness for C3: the spec's seed scenario — on the empty book,
`place_market(2, Sell, 10)` returns the empty fill sequence, leaves nothing
resting, and a subsequent cancel returns `OrderNotFound`. -/
theorem claim_C3_witness :
    WF (OrderBook.new Nat)
    ∧ (0 : Int) < 10
    ∧ (2 ∉ (process_market_order (OrderBook.new Nat) 2 Side.Sell 10).2.order_index.map
          IndexEntry.id
      ∧ 2 ∉ sideIds (process_market_order (OrderBook.new Nat) 2 Side.Sell 10).2.buy_side
      ∧ 2 ∉ sideIds (process_market_order (OrderBook.new Nat) 2 Side.Sell 10).2.sell_side
      ∧ (cancel_order (process_market_order (OrderBook.new Nat) 2 Side.Sell 10).2 2).1
          = Except.error errors.CancelOrder.OrderNotFound)
    ∧ ((process_market_order (OrderBook.new Nat) 2 Side.Sell 10).1 = Except.ok []
      ∧ (cancel_order (process_market_order (OrderBook.new Nat) 2 Side.Sell 10).2 2).1
          = Except.error errors.CancelOrder.OrderNotFound) :=
  ⟨by decide, by decide,
   (claim_C3_amended (OrderBook.new Nat) 2 Side.Sell 10 (by decide)).1 (by decide),
   (claim_C3_amended (OrderBook.new Nat) 2 Side.Sell 10 (by decide)).2.2 (by decide)⟩

end RustOb
